import Mathlib

/-!
# Verification of the n-store/peloton storage `Tuple` component

Shallow embedding of `src/storage/tuple.cpp`: a tuple is a schema-shaped
buffer of column slots; inlined columns hold their fixed-width value
directly, uninlined columns hold an indirection record pointing at a
payload block allocated from an arena pool.  The external collaborators
(`Schema`, `Value`, `Pool`, `SerializeInput`/`SerializeOutput`) are not part
of the repository source; they are modelled from the specification's
collaborator contracts (§3, §4, §6) and carry doc comments saying so.
-/

namespace NStoreTuple

/-! ### Byte-stream primitives -/

/-- Modelled from the spec: the ByteWriter collaborator emits fixed-width
integers as big-endian base-256 digit lists of a given width
(`writeInt32` and the canonical 64-bit forms). -/
def natToBytes : Nat → Nat → List Nat
  | 0, _ => []
  | w + 1, n => natToBytes w (n / 256) ++ [n % 256]

/-- Modelled from the spec: the ByteReader collaborator decodes a
big-endian base-256 digit list back into a natural number. -/
def bytesToNat (bs : List Nat) : Nat :=
  bs.foldl (fun a b => a * 256 + b) 0

theorem length_natToBytes (w n : Nat) : (natToBytes w n).length = w := by
  induction w generalizing n with
  | zero => rfl
  | succ k ih => simp [natToBytes, ih]

theorem bytesToNat_foldl (bs : List Nat) (a : Nat) :
    bs.foldl (fun a b => a * 256 + b) a = a * 256 ^ bs.length + bytesToNat bs := by
  induction bs generalizing a with
  | nil => simp [bytesToNat]
  | cons b rest ih =>
    simp only [List.foldl_cons, bytesToNat, List.length_cons]
    rw [ih, ih (0 * 256 + b)]
    ring

theorem bytesToNat_append (xs ys : List Nat) :
    bytesToNat (xs ++ ys) = bytesToNat xs * 256 ^ ys.length + bytesToNat ys := by
  simp only [bytesToNat, List.foldl_append]
  rw [bytesToNat_foldl]
  rfl

theorem bytesToNat_natToBytes (w n : Nat) (h : n < 256 ^ w) :
    bytesToNat (natToBytes w n) = n := by
  induction w generalizing n with
  | zero => simp [natToBytes, bytesToNat]; omega
  | succ k ih =>
    simp only [natToBytes]
    rw [bytesToNat_append]
    have hdiv : n / 256 < 256 ^ k := by
      rw [Nat.div_lt_iff_lt_mul (by omega : 0 < 256)]
      rw [pow_succ] at h
      omega
    rw [ih _ hdiv]
    simp [bytesToNat]
    omega

/-! ### Errors -/

/-- Error kinds of the component (spec §7). -/
inductive TupleError where
  | typeMismatch
  | unknownType
  | missingPool
  | inputExhausted
  deriving DecidableEq

instance exceptDecEq {ε α : Type} [DecidableEq ε] [DecidableEq α] :
    DecidableEq (Except ε α) := fun a b =>
  match a, b with
  | .error e, .error f => decidable_of_iff (e = f) (by simp)
  | .error _, .ok _ => .isFalse (by simp)
  | .ok _, .error _ => .isFalse (by simp)
  | .ok x, .ok y => decidable_of_iff (x = y) (by simp)

/-! ### Value model -/

/-- The column value types appearing in `tuple.cpp`'s switches, plus
`invalid` to stand for any other/unrecognized type. -/
inductive ValueType where
  | tinyint
  | smallint
  | integer
  | bigint
  | timestamp
  | double
  | decimal
  | varchar
  | varbinary
  | invalid
  deriving DecidableEq, Inhabited

/-- Whether a type is a variable-length (uninlineable) kind. -/
def isVarlenType : ValueType → Bool
  | .varchar => true
  | .varbinary => true
  | _ => false

/-- Modelled from the spec: the external `Value` collaborator.  A typed
column value: fixed-width kinds carry a numeric payload or the null
sentinel, variable-length kinds carry an optional byte payload
(`none` = SQL NULL). -/
inductive Value where
  | fixed (ty : ValueType) (v : Option Int)
  | varlen (ty : ValueType) (p : Option (List Nat))
  deriving DecidableEq

/-- The type tag a value carries. -/
def Value.typeOf : Value → ValueType
  | .fixed ty _ => ty
  | .varlen ty _ => ty

/-- Comparison/equality/hash key of a value: the logical content,
independent of the physical width of the type tag (the spec says Value
equality is "type-correct, e.g. numeric comparisons independent of
physical width"). -/
def valueKey : Value → Option (Int ⊕ List Nat)
  | .fixed _ none => none
  | .fixed _ (some v) => some (.inl v)
  | .varlen _ none => none
  | .varlen _ (some p) => some (.inr p)

/-- Modelled from the spec: `Value::IsNull`. -/
def Value.isNull (v : Value) : Bool :=
  decide (valueKey v = none)

/-- Modelled from the spec: `Value::OpNotEquals(...).IsTrue()`, the
negation of the value equality used by `EqualsNoSchemaCheck`. -/
def opNotEqualsIsTrue (a b : Value) : Bool :=
  !(decide (valueKey a = valueKey b))

/-- Three-way comparison of integers returning -1/0/1. -/
def intCmp (a b : Int) : Int :=
  if a < b then -1 else if b < a then 1 else 0

/-- Lexicographic three-way comparison of byte lists. -/
def listCmp : List Nat → List Nat → Int
  | [], [] => 0
  | [], _ :: _ => -1
  | _ :: _, [] => 1
  | a :: as, b :: bs => if a < b then -1 else if b < a then 1 else listCmp as bs

/-- Three-way comparison of value keys: nulls sort first, numeric keys
before byte-payload keys. -/
def keyCmp : Option (Int ⊕ List Nat) → Option (Int ⊕ List Nat) → Int
  | none, none => 0
  | none, some _ => -1
  | some _, none => 1
  | some (.inl a), some (.inl b) => intCmp a b
  | some (.inl _), some (.inr _) => -1
  | some (.inr _), some (.inl _) => 1
  | some (.inr a), some (.inr b) => listCmp a b

/-- Modelled from the spec: `Value::Compare`, a per-column three-way
comparator returning -1/0/1. -/
def valueCompare (a b : Value) : Int :=
  keyCmp (valueKey a) (valueKey b)

/-- A hash of a value key. -/
def keyHash : Option (Int ⊕ List Nat) → Nat
  | none => 0
  | some (.inl v) => 1 + 2 * v.natAbs + (if v < 0 then 1 else 0)
  | some (.inr p) => 2 + p.foldl (fun h b => h * 257 + b + 1) 0

/-- Modelled from the spec: `Value::HashCombine`, folding a value's hash
contribution into a running seed; consistent with value equality since it
depends only on the value key. -/
def hashCombine (seed : Nat) (v : Value) : Nat :=
  seed * 1099511628211 + keyHash (valueKey v)

/-- Modelled from the spec: `ValuePeeker::PeekObjectLength`, the payload
byte length of a variable-length value. -/
def peekObjectLength : Value → Nat
  | .varlen _ (some p) => p.length
  | _ => 0

/-- Modelled from the spec: `Value::CastAs`.  Casting preserves the
logical content and retags the value; a cast between the fixed-width class
and the variable-length class has no valid conversion and fails with
`TypeMismatchError`. -/
def castAs (v : Value) (ty : ValueType) : Except TupleError Value :=
  if isVarlenType ty then
    match v with
    | .varlen _ p => .ok (.varlen ty p)
    | .fixed _ _ => .error .typeMismatch
  else
    match v with
    | .fixed _ x => .ok (.fixed ty x)
    | .varlen _ _ => .error .typeMismatch

/-! ### Storage wire format of a single value -/

/-- The 32-bit marker standing for a NULL variable-length value on the
wire. -/
def nullMarker32 : Nat := 2 ^ 32 - 1

/-- The 64-bit pattern standing for the fixed-width null sentinel. -/
def fixedNullPattern : Nat := 2 ^ 63

/-- Modelled from the spec: the canonical 8-byte form of a fixed-width
value (null sentinel included). -/
def encodeFixed8 : Option Int → List Nat
  | none => natToBytes 8 fixedNullPattern
  | some v => natToBytes 8 (v % (2 ^ 64 : Int)).toNat

/-- Decode the canonical 8-byte form back into an optional integer. -/
def decodeFixed8 (n : Nat) : Option Int :=
  if n = fixedNullPattern then none
  else if n < 2 ^ 63 then some (n : Int)
  else some ((n : Int) - 2 ^ 64)

theorem length_encodeFixed8 (v : Option Int) : (encodeFixed8 v).length = 8 := by
  cases v <;> simp [encodeFixed8, length_natToBytes]

theorem decodeFixed8_encodeFixed8 (v : Option Int)
    (h : ∀ x, v = some x → -(2 ^ 63 : Int) < x ∧ x < 2 ^ 63) :
    decodeFixed8 (bytesToNat (encodeFixed8 v)) = v := by
  cases v with
  | none =>
    simp only [encodeFixed8]
    rw [bytesToNat_natToBytes 8 fixedNullPattern (by norm_num [fixedNullPattern])]
    simp [decodeFixed8]
  | some x =>
    obtain ⟨h1, h2⟩ := h x rfl
    simp only [encodeFixed8]
    have hmod : (0 : Int) ≤ x % (2 ^ 64 : Int) ∧ x % (2 ^ 64 : Int) < 2 ^ 64 := by
      constructor
      · exact Int.emod_nonneg x (by norm_num)
      · exact Int.emod_lt_of_pos x (by norm_num)
    have hlt : (x % (2 ^ 64 : Int)).toNat < 256 ^ 8 := by
      have : (256 : Nat) ^ 8 = 2 ^ 64 := by norm_num
      rw [this]
      omega
    rw [bytesToNat_natToBytes _ _ hlt]
    rcases le_or_lt 0 x with hx | hx
    · have hxmod : x % (2 ^ 64 : Int) = x := Int.emod_eq_of_lt hx (by omega)
      simp only [decodeFixed8, fixedNullPattern]
      have hne : (x % (2 ^ 64 : Int)).toNat ≠ 2 ^ 63 := by omega
      have hlt63 : (x % (2 ^ 64 : Int)).toNat < 2 ^ 63 := by omega
      simp only [if_neg hne, if_pos hlt63]
      congr 1
      omega
    · have hxmod : x % (2 ^ 64 : Int) = x + 2 ^ 64 := by omega
      simp only [decodeFixed8, fixedNullPattern]
      have hne : (x % (2 ^ 64 : Int)).toNat ≠ 2 ^ 63 := by
        rw [hxmod]; omega
      have hge : ¬((x % (2 ^ 64 : Int)).toNat < 2 ^ 63) := by
        rw [hxmod]; omega
      simp only [if_neg hne, if_neg hge]
      congr 1
      rw [hxmod]
      omega

/-- Modelled from the spec: `Value::SerializeTo`, the storage/page wire
form of a single value (fixed kinds in canonical 8-byte form,
variable-length kinds as a 4-byte length prefix followed by the payload,
NULL as the 32-bit null marker). -/
def valueSerializeTo : Value → List Nat
  | .fixed _ v => encodeFixed8 v
  | .varlen _ none => natToBytes 4 nullMarker32
  | .varlen _ (some p) => natToBytes 4 p.length ++ p

/-! ### Pool / arena memory -/

/-- Modelled from the spec: the external `Pool` arena allocator, holding
the payload blocks of uninlined columns.  Addresses are indices into the
block table; `none` marks a freed block. -/
structure Mem where
  blocks : List (Option (List Nat))
  deriving DecidableEq

/-- Allocate a fresh block holding `p`; returns its address. -/
def Mem.alloc (m : Mem) (p : List Nat) : Nat × Mem :=
  (m.blocks.length, ⟨m.blocks ++ [some p]⟩)

/-- Read the block at an address (freed or out-of-range reads as absent). -/
def Mem.lookup (m : Mem) (a : Nat) : Option (List Nat) :=
  m.blocks.getD a none

/-- Overwrite (or with `none`, free) the block at an address. -/
def Mem.write (m : Mem) (a : Nat) (b : Option (List Nat)) : Mem :=
  ⟨m.blocks.set a b⟩

/-- `m'` extends `m`: every block of `m` is still present unchanged and
only fresh addresses were added. -/
def Mem.ext (m m' : Mem) : Prop :=
  ∃ l, m'.blocks = m.blocks ++ l

theorem Mem.ext_refl (m : Mem) : Mem.ext m m :=
  ⟨[], by simp⟩

theorem Mem.ext_trans {m1 m2 m3 : Mem} (h1 : Mem.ext m1 m2) (h2 : Mem.ext m2 m3) :
    Mem.ext m1 m3 := by
  obtain ⟨l1, hl1⟩ := h1
  obtain ⟨l2, hl2⟩ := h2
  exact ⟨l1 ++ l2, by simp [hl2, hl1]⟩

theorem Mem.ext_alloc (m : Mem) (p : List Nat) : Mem.ext m (m.alloc p).2 :=
  ⟨[some p], rfl⟩

theorem Mem.ext_length {m m' : Mem} (h : Mem.ext m m') :
    m.blocks.length ≤ m'.blocks.length := by
  obtain ⟨l, hl⟩ := h
  simp [hl]

theorem Mem.lookup_ext {m m' : Mem} (h : Mem.ext m m') {a : Nat}
    (ha : a < m.blocks.length) : m'.lookup a = m.lookup a := by
  obtain ⟨l, hl⟩ := h
  simp [Mem.lookup, hl, List.getD, List.getElem?_append_left ha]

theorem Mem.lookup_alloc_self (m : Mem) (p : List Nat) :
    (m.alloc p).2.lookup (m.alloc p).1 = some p := by
  simp [Mem.alloc, Mem.lookup, List.getD]

theorem Mem.lookup_write_ne (m : Mem) (a b : Nat) (x : Option (List Nat))
    (h : a ≠ b) : (m.write b x).lookup a = m.lookup a := by
  simp [Mem.write, Mem.lookup, List.getD, List.getElem?_set_ne (Ne.symm h)]

/-! ### Schema and tuple -/

/-- Modelled from the spec: one column descriptor of the external,
immutable `Schema` collaborator (the byte offset and fixed length are
abstracted away by addressing the buffer per column slot; the spec's
layout invariant says the offsets partition the fixed region). -/
structure Column where
  type : ValueType
  isInlined : Bool
  deriving DecidableEq

instance : Inhabited Column := ⟨⟨.invalid, true⟩⟩

/-- Modelled from the spec: the external `Schema` collaborator, an ordered
sequence of column descriptors. -/
structure Schema where
  cols : List Column
  deriving DecidableEq

/-- `Schema::GetColumnCount`. -/
def Schema.columnCount (s : Schema) : Nat :=
  s.cols.length

/-- `Schema::GetType`. -/
def Schema.colType (s : Schema) (c : Nat) : ValueType :=
  (s.cols.getD c default).type

/-- `Schema::IsInlined(column)`. -/
def Schema.isInlinedCol (s : Schema) (c : Nat) : Bool :=
  (s.cols.getD c default).isInlined

/-- `Schema::IsInlined()`, the whole-row fast flag. -/
def Schema.isInlinedAll (s : Schema) : Bool :=
  s.cols.all (·.isInlined)

/-- The derived ordered sequence of indices of uninlined columns
(`Schema::GetUninlinedColumnIndex` enumerates it,
`Schema::GetUninlinedColumnCount` is its length). -/
def Schema.uninlinedIdxs (s : Schema) : List Nat :=
  (List.range s.cols.length).filter (fun c => !(s.cols.getD c default).isInlined)

/-- One column's worth of the tuple's fixed-size buffer region: inlined
columns hold the fixed-width value bytes directly, uninlined columns hold
the indirection record (a handle to a pool block, or the null
indirection). -/
inductive Slot where
  | inlined (v : Option Int)
  | ref (p : Option Nat)
  deriving DecidableEq

instance : Inhabited Slot := ⟨.inlined none⟩

/-- A `Tuple`: a schema reference (`schemaId` models the C++ schema
pointer identity, `schema` its contents) and the backing buffer, one slot
per column. -/
structure Tuple where
  schemaId : Nat
  schema : Schema
  data : List Slot
  deriving DecidableEq

/-- Read the value a slot holds, interpreted at a column type
(`Value::materializeAt` of the spec's indirection-record contract). -/
def slotValue (m : Mem) (ty : ValueType) : Slot → Value
  | .inlined v => .fixed ty v
  | .ref none => .varlen ty none
  | .ref (some a) => .varlen ty (m.lookup a)

/-- `Tuple::GetValue`: materialize the value of a column from the buffer
(and, for uninlined columns, from the pool block it points to). -/
def GetValue (m : Mem) (t : Tuple) (c : Nat) : Value :=
  slotValue m (t.schema.colType c) (t.data.getD c default)

/-- `Tuple::IsNull`. -/
def Tuple.isNullCol (m : Mem) (t : Tuple) (c : Nat) : Bool :=
  (GetValue m t c).isNull

/-! ### Field mutation (`Tuple::SetValueAllocate`) -/

/-- Modelled from the spec: `Value::SerializeWithAllocation` — write a
value into a column slot; a non-null variable-length payload is placed in
a freshly allocated pool block (failing with `MissingPoolError` when no
pool was supplied), fixed-width values are stored inline. -/
def serializeWithAllocation (v : Value) (pool : Bool) (m : Mem) :
    Except TupleError (Slot × Mem) :=
  match v with
  | .fixed _ x => .ok (.inlined x, m)
  | .varlen _ none => .ok (.ref none, m)
  | .varlen _ (some p) =>
    if pool then
      let (a, m') := m.alloc p
      .ok (.ref (some a), m')
    else .error .missingPool

/-- `Tuple::SetValueAllocate` (tuple.cpp:26-42): cast the value to the
column's declared type, then serialize it into the column slot, drawing
any uninlined payload block from the pool. -/
def SetValueAllocate (t : Tuple) (m : Mem) (c : Nat) (v : Value) (pool : Bool) :
    Except TupleError (Tuple × Mem) :=
  match castAs v (t.schema.colType c) with
  | .error e => .error e
  | .ok v' =>
    match serializeWithAllocation v' pool m with
    | .error e => .error e
    | .ok (slot, m') => .ok ({ t with data := t.data.set c slot }, m')

/-! ### Copy (`Tuple::Copy`) -/

/-- The per-uninlined-column loop of `Tuple::Copy` (tuple.cpp:61-70):
re-materialize the value from the just-copied shared indirection and
re-serialize it into a fresh pool block. -/
def copyLoop (pool : Bool) : List Nat → Tuple → Mem → Except TupleError (Tuple × Mem)
  | [], t, m => .ok (t, m)
  | c :: rest, t, m =>
    match SetValueAllocate t m c (GetValue m t c) pool with
    | .error e => .error e
    | .ok (t', m') => copyLoop pool rest t' m'

/-- `Tuple::Copy` (tuple.cpp:46-74): bulk-copy the whole fixed region from
the source buffer, then sever every uninlined column by re-allocating its
payload from the pool. -/
def Copy (t : Tuple) (source : List Slot) (pool : Bool) (m : Mem) :
    Except TupleError (Tuple × Mem) :=
  let t1 : Tuple := { t with data := source }
  if t.schema.isInlinedAll then .ok (t1, m)
  else copyLoop pool t.schema.uninlinedIdxs t1 m

/-! ### Storage serialization (`Tuple::SerializeTo`, `Tuple::DeserializeFrom`,
`Tuple::DeserializeWithHeaderFrom`) -/

/-- `Tuple::SerializeTo` (tuple.cpp:221-231): reserve 4 bytes, write every
column's native serialized form in schema order, then patch the reserved
bytes with the position delta (the body length). -/
def SerializeTo (m : Mem) (t : Tuple) : List Nat :=
  let body :=
    ((List.range t.schema.columnCount).map (fun c => valueSerializeTo (GetValue m t c))).flatten
  natToBytes 4 body.length ++ body

/-- Modelled from the spec: the ByteReader's positional read of `k` raw
bytes off the front of the stream (failing when the stream is
exhausted). -/
def readN (k : Nat) (input : List Nat) : Except TupleError (Nat × List Nat) :=
  if k ≤ input.length then .ok (bytesToNat (input.take k), input.drop k)
  else .error .inputExhausted

/-- Modelled from the spec: `Value::DeserializeFrom` — decode one column's
wire form directly into a column slot, returning the slot, the updated
pool, the number of bytes consumed and the remaining stream.  A non-null
variable-length payload requires a pool to allocate its block
(`MissingPoolError` otherwise); the null marker and fixed-width kinds
never allocate. -/
def valueDeserializeFrom (pool : Bool) (m : Mem) (col : Column) (input : List Nat) :
    Except TupleError (Slot × Mem × Nat × List Nat) :=
  if isVarlenType col.type then
    match readN 4 input with
    | .error e => .error e
    | .ok (len, rest) =>
        if len = nullMarker32 then .ok (.ref none, m, 4, rest)
        else if pool then
          if len ≤ rest.length then
            let (a, m') := m.alloc (rest.take len)
            .ok (.ref (some a), m', 4 + len, rest.drop len)
          else .error .inputExhausted
        else .error .missingPool
  else
    match readN 8 input with
    | .error e => .error e
    | .ok (n, rest) => .ok (.inlined (decodeFixed8 n), m, 8, rest)

/-- The per-column loop shared by `Tuple::DeserializeFrom` and
`Tuple::DeserializeWithHeaderFrom` (tuple.cpp:155-173, 188-196): decode
each column in schema order, accumulating the consumed byte count. -/
def deserializeCols (pool : Bool) : List Column → Mem → List Nat →
    Except TupleError (List Slot × Mem × Nat × List Nat)
  | [], m, input => .ok ([], m, 0, input)
  | col :: cols, m, input =>
    match valueDeserializeFrom pool m col input with
    | .error e => .error e
    | .ok (slot, m1, k1, input1) =>
      match deserializeCols pool cols m1 input1 with
      | .error e => .error e
      | .ok (slots, m2, k2, input2) => .ok (slot :: slots, m2, k1 + k2, input2)

/-- `Tuple::DeserializeFrom` (tuple.cpp:148-174): read and discard the
4-byte size field, then decode every column into the tuple's buffer,
allocating uninlined payloads from the supplied pool. -/
def DeserializeFrom (t : Tuple) (pool : Bool) (m : Mem) (input : List Nat) :
    Except TupleError (Tuple × Mem × List Nat) :=
  match readN 4 input with
  | .error e => .error e
  | .ok (_, rest) =>
    match deserializeCols pool t.schema.cols m rest with
    | .error e => .error e
    | .ok (slots, m', _, rest') => .ok ({ t with data := slots }, m', rest')

/-- `Tuple::DeserializeWithHeaderFrom` (tuple.cpp:176-199): read and
discard the 4-byte size field (counting its 4 bytes), then decode every
column, passing no pool (`NULL`) to the per-column deserialization, and
return the total number of bytes consumed. -/
def DeserializeWithHeaderFrom (t : Tuple) (m : Mem) (input : List Nat) :
    Except TupleError (Tuple × Mem × Nat × List Nat) :=
  match readN 4 input with
  | .error e => .error e
  | .ok (_, rest) =>
    match deserializeCols false t.schema.cols m rest with
    | .error e => .error e
    | .ok (slots, m', k, rest') => .ok ({ t with data := slots }, m', 4 + k, rest')

/-! ### Export serialization (`Tuple::SerializeToExport`,
`Tuple::ExportSerializationSize`) -/

/-- The maximum decimal precision constant `Value::max_decimal_precision`
of the external Value collaborator. -/
def maxDecimalPrecision : Nat := 38

/-- Modelled from the spec: `Value::SerializeToExport` — the export wire
form of one non-null value: fixed numeric kinds in canonical 8-byte int64
form, decimals in ascii as a 4-byte length followed by max-precision
digits, a radix point and a sign, variable-length kinds as a 4-byte length
prefix followed by the payload. -/
def valueSerializeToExport : Value → List Nat
  | .fixed ty v =>
    match ty with
    | .decimal =>
      natToBytes 4 (maxDecimalPrecision + 2) ++
        (match v with
         | none => List.replicate (maxDecimalPrecision + 2) 0
         | some x =>
           (if x < 0 then 45 else 43) :: 46 ::
             (List.replicate (maxDecimalPrecision - (Nat.toDigits 10 x.natAbs).length) 48 ++
               (Nat.toDigits 10 x.natAbs).map Char.toNat).take maxDecimalPrecision)
    | _ => encodeFixed8 v
  | .varlen _ none => []
  | .varlen _ (some p) => natToBytes 4 p.length ++ p

/-- The loop of `Tuple::SerializeToExport` (tuple.cpp:236-249), carrying
the emitted bytes and the caller-supplied null bitmap. -/
def exportLoop (m : Mem) (t : Tuple) (colOffset : Nat) :
    List Nat → List Nat × List Nat → List Nat × List Nat
  | [], st => st
  | c :: cs, (out, arr) =>
    if (GetValue m t c).isNull then
      let idx := colOffset + c
      let byte := idx >>> 3
      let bit := idx % 8
      let mask := 128 >>> bit
      exportLoop m t colOffset cs (out, arr.set byte ((arr.getD byte 0) ||| mask))
    else
      exportLoop m t colOffset cs (out ++ valueSerializeToExport (GetValue m t c), arr)

/-- `Tuple::SerializeToExport` (tuple.cpp:233-250): visit the columns in
schema order; a null column emits no bytes and turns on its bit in the
shared null bitmap, a non-null column delegates to the value's export
encoding. -/
def SerializeToExport (m : Mem) (t : Tuple) (colOffset : Nat) (nullArray : List Nat) :
    List Nat × List Nat :=
  exportLoop m t colOffset (List.range t.schema.columnCount) ([], nullArray)

/-- The per-column byte contribution switch of
`Tuple::ExportSerializationSize` (tuple.cpp:86-117). -/
def exportColSize (m : Mem) (t : Tuple) (c : Nat) : Except TupleError Nat :=
  match t.schema.colType c with
  | .tinyint | .smallint | .integer | .bigint | .timestamp | .double => .ok 8
  | .decimal => .ok (4 + maxDecimalPrecision + 1 + 1)
  | .varchar | .varbinary =>
    if !(GetValue m t c).isNull then .ok (4 + peekObjectLength (GetValue m t c))
    else .ok 0
  | .invalid => .error .unknownType

/-- The accumulation loop of `Tuple::ExportSerializationSize`. -/
def exportSizeLoop (m : Mem) (t : Tuple) : List Nat → Except TupleError Nat
  | [] => .ok 0
  | c :: cs =>
    match exportColSize m t c with
    | .error e => .error e
    | .ok b =>
      match exportSizeLoop m t cs with
      | .error e => .error e
      | .ok s => .ok (b + s)

/-- `Tuple::ExportSerializationSize` (tuple.cpp:81-120): the byte count
`SerializeToExport` will write for this row, excluding the row header and
null bitmap; throws `UnknownTypeError` on an unrecognized column type. -/
def ExportSerializationSize (m : Mem) (t : Tuple) : Except TupleError Nat :=
  exportSizeLoop m t (List.range t.schema.columnCount)

/-! ### Comparison, equality, hashing -/

/-- `Tuple::EqualsNoSchemaCheck` (tuple.cpp:264-276): column-wise value
equality over all columns in schema order, no schema-identity check. -/
def EqualsNoSchemaCheck (m : Mem) (t other : Tuple) : Bool :=
  (List.range t.schema.columnCount).all
    (fun c => !opNotEqualsIsTrue (GetValue m t c) (GetValue m other c))

/-- `Tuple::operator==` (tuple.cpp:252-258): schema identity (pointer
comparison, modelled by `schemaId`) and then `EqualsNoSchemaCheck`. -/
def tupleEq (m : Mem) (t other : Tuple) : Bool :=
  if t.schemaId ≠ other.schemaId then false
  else EqualsNoSchemaCheck m t other

/-- The loop of `Tuple::Compare` (tuple.cpp:293-301): return the first
nonzero per-column comparator result. -/
def compareLoop (m : Mem) (t other : Tuple) : List Nat → Int
  | [] => 0
  | c :: cs =>
    let diff := valueCompare (GetValue m t c) (GetValue m other c)
    if diff = 0 then compareLoop m t other cs else diff

/-- `Tuple::Compare` (tuple.cpp:289-304): lexicographic column-order
three-way comparison. -/
def Compare (m : Mem) (t other : Tuple) : Int :=
  compareLoop m t other (List.range t.schema.columnCount)

/-- `Tuple::HashCode(seed)` (tuple.cpp:318-327): fold every column's hash
contribution into the running seed in schema order. -/
def HashCodeSeeded (m : Mem) (t : Tuple) (seed : Nat) : Nat :=
  (List.range t.schema.columnCount).foldl (fun s c => hashCombine s (GetValue m t c)) seed

/-- `Tuple::HashCode()` (tuple.cpp:329-332): the zero-argument form,
starting from the fixed initial seed 0. -/
def HashCode (m : Mem) (t : Tuple) : Nat :=
  HashCodeSeeded m t 0

/-! ### Statement-level state-threaded translations of the read-only
operations.  The C++ methods act on the tuple buffer and the pool through
pointers; the faithful state-passing translation threads `(Tuple, Mem)`
through every per-column access, so that the frame effect of each
operation is a theorem rather than a typing convention. -/

/-- The state-threaded translation of `Tuple::GetValue`: a read returns
the value together with the (untouched) buffer and pool. -/
def getValueS (t : Tuple) (m : Mem) (c : Nat) : Value × Tuple × Mem :=
  (GetValue m t c, t, m)

/-- State-threaded loop of `Tuple::EqualsNoSchemaCheck`. -/
def equalsLoopS (other : Tuple) : List Nat → Tuple → Mem → Bool × Tuple × Mem
  | [], t, m => (true, t, m)
  | c :: cs, t, m =>
    let (lhs, t1, m1) := getValueS t m c
    let rhs := GetValue m1 other c
    if opNotEqualsIsTrue lhs rhs then (false, t1, m1)
    else equalsLoopS other cs t1 m1

/-- State-threaded `Tuple::EqualsNoSchemaCheck`. -/
def EqualsNoSchemaCheckS (t other : Tuple) (m : Mem) : Bool × Tuple × Mem :=
  equalsLoopS other (List.range t.schema.columnCount) t m

/-- State-threaded loop of `Tuple::Compare`. -/
def compareLoopS (other : Tuple) : List Nat → Tuple → Mem → Int × Tuple × Mem
  | [], t, m => (0, t, m)
  | c :: cs, t, m =>
    let (lhs, t1, m1) := getValueS t m c
    let diff := valueCompare lhs (GetValue m1 other c)
    if diff = 0 then compareLoopS other cs t1 m1 else (diff, t1, m1)

/-- State-threaded `Tuple::Compare`. -/
def CompareS (t other : Tuple) (m : Mem) : Int × Tuple × Mem :=
  compareLoopS other (List.range t.schema.columnCount) t m

/-- State-threaded loop of `Tuple::HashCode`. -/
def hashLoopS : List Nat → Nat → Tuple → Mem → Nat × Tuple × Mem
  | [], s, t, m => (s, t, m)
  | c :: cs, s, t, m =>
    let (v, t1, m1) := getValueS t m c
    hashLoopS cs (hashCombine s v) t1 m1

/-- State-threaded `Tuple::HashCode()`. -/
def HashCodeS (t : Tuple) (m : Mem) : Nat × Tuple × Mem :=
  hashLoopS (List.range t.schema.columnCount) 0 t m

/-- State-threaded loop of `Tuple::ExportSerializationSize`. -/
def exportSizeLoopS : List Nat → Tuple → Mem → Except TupleError Nat × Tuple × Mem
  | [], t, m => (.ok 0, t, m)
  | c :: cs, t, m =>
    match exportColSize m t c with
    | .error e => (.error e, t, m)
    | .ok b =>
      match exportSizeLoopS cs t m with
      | (.error e, t1, m1) => (.error e, t1, m1)
      | (.ok s, t1, m1) => (.ok (b + s), t1, m1)

/-- State-threaded `Tuple::ExportSerializationSize`. -/
def ExportSerializationSizeS (t : Tuple) (m : Mem) : Except TupleError Nat × Tuple × Mem :=
  exportSizeLoopS (List.range t.schema.columnCount) t m

/-! ### Well-formedness -/

/-- Layout invariant of a bound tuple (spec §3): a column's slot matches
its inlined-ness and type class, inlined numeric payloads fit the
canonical 64-bit form, uninlined indirections point below the pool's
allocation frontier and their payloads fit a 32-bit length. -/
def wfTupleB (m : Mem) (t : Tuple) : Bool :=
  (List.range t.schema.columnCount).all (fun c =>
    match t.data.getD c default with
    | .inlined none => !isVarlenType (t.schema.colType c)
    | .inlined (some x) =>
      !isVarlenType (t.schema.colType c) && decide (-(2 ^ 63 : Int) < x ∧ x < 2 ^ 63)
    | .ref none => isVarlenType (t.schema.colType c)
    | .ref (some a) =>
      isVarlenType (t.schema.colType c) && decide (a < m.blocks.length) &&
        (match m.lookup a with
         | none => true
         | some p => decide (p.length < 2 ^ 32 - 1)))

/-- Layout invariant of a raw source buffer handed to `Tuple::Copy`:
inlined columns hold inline slots, uninlined columns are of
variable-length type and hold indirection records pointing below the
pool's allocation frontier. -/
def wfSourceSlotsB (m : Mem) (s : Schema) (src : List Slot) : Bool :=
  (List.range s.columnCount).all (fun c =>
    if s.isInlinedCol c then
      match src.getD c default with
      | .inlined _ => true
      | .ref _ => false
    else
      isVarlenType (s.colType c) &&
        (match src.getD c default with
         | .ref none => true
         | .ref (some a) => decide (a < m.blocks.length)
         | .inlined _ => false))

/-- A value fits a column: its type tag is the column's type, its shape
matches the column's type class, and its payload fits the wire form. -/
def wfValForCol (col : Column) (v : Value) : Bool :=
  match v with
  | .fixed ty xo =>
    ty == col.type && !isVarlenType col.type &&
      (match xo with
       | none => true
       | some x => decide (-(2 ^ 63 : Int) < x ∧ x < 2 ^ 63))
  | .varlen ty p =>
    ty == col.type && isVarlenType col.type &&
      (match p with
       | none => true
       | some pl => decide (pl.length < 2 ^ 32 - 1))

/-- A value whose deserialization requires a fresh pool allocation: a
non-null variable-length payload. -/
def isNonNullVarlen : Value → Bool
  | .varlen _ (some _) => true
  | _ => false

/-! ### Lemmas about the value comparator -/

theorem intCmp_antisym (a b : Int) : intCmp a b = -intCmp b a := by
  unfold intCmp
  rcases lt_trichotomy a b with h | h | h
  · simp [h, not_lt.mpr (le_of_lt h)]
  · simp [h]
  · simp [h, not_lt.mpr (le_of_lt h)]

theorem intCmp_eq_zero_iff (a b : Int) : intCmp a b = 0 ↔ a = b := by
  unfold intCmp
  rcases lt_trichotomy a b with h | h | h
  · simp [h]; omega
  · simp [h]
  · simp [h, not_lt.mpr (le_of_lt h)]; omega

theorem listCmp_antisym (a b : List Nat) : listCmp a b = -listCmp b a := by
  induction a generalizing b with
  | nil => cases b <;> simp [listCmp]
  | cons x xs ih =>
    cases b with
    | nil => simp [listCmp]
    | cons y ys =>
      simp only [listCmp]
      rcases lt_trichotomy x y with h | h | h
      · simp [h, not_lt.mpr (le_of_lt h)]
      · simp [h, lt_irrefl, ih ys]
      · simp [h, not_lt.mpr (le_of_lt h)]

theorem listCmp_eq_zero_iff (a b : List Nat) : listCmp a b = 0 ↔ a = b := by
  induction a generalizing b with
  | nil => cases b <;> simp [listCmp]
  | cons x xs ih =>
    cases b with
    | nil => simp [listCmp]
    | cons y ys =>
      simp only [listCmp]
      rcases lt_trichotomy x y with h | h | h
      · simp [h]; omega
      · simp [h, lt_irrefl, ih ys]
      · simp [h, not_lt.mpr (le_of_lt h)]
        intro h'
        omega

theorem keyCmp_antisym (a b : Option (Int ⊕ List Nat)) : keyCmp a b = -keyCmp b a := by
  rcases a with _ | (a | a) <;> rcases b with _ | (b | b) <;>
    first
      | exact intCmp_antisym _ _
      | exact listCmp_antisym _ _
      | rfl

theorem keyCmp_eq_zero_iff (a b : Option (Int ⊕ List Nat)) : keyCmp a b = 0 ↔ a = b := by
  rcases a with _ | (a | a) <;> rcases b with _ | (b | b) <;>
    simp [keyCmp, intCmp_eq_zero_iff, listCmp_eq_zero_iff]

theorem valueCompare_antisym (a b : Value) : valueCompare a b = -valueCompare b a :=
  keyCmp_antisym _ _

theorem valueCompare_eq_zero_iff (a b : Value) :
    valueCompare a b = 0 ↔ valueKey a = valueKey b :=
  keyCmp_eq_zero_iff _ _

/-! ### Equality, comparison and hashing lemmas -/

theorem equalsNoSchemaCheck_iff_keys (m : Mem) (t1 t2 : Tuple) :
    EqualsNoSchemaCheck m t1 t2 = true ↔
      ∀ c ∈ List.range t1.schema.columnCount,
        valueKey (GetValue m t1 c) = valueKey (GetValue m t2 c) := by
  simp [EqualsNoSchemaCheck, opNotEqualsIsTrue, List.all_eq_true]

theorem compareLoop_antisym (m : Mem) (t1 t2 : Tuple) (cs : List Nat) :
    compareLoop m t1 t2 cs = -compareLoop m t2 t1 cs := by
  induction cs with
  | nil => rfl
  | cons c rest ih =>
    simp only [compareLoop]
    rw [valueCompare_antisym (GetValue m t1 c) (GetValue m t2 c)]
    by_cases h : valueCompare (GetValue m t2 c) (GetValue m t1 c) = 0
    · simp [h, ih]
    · have h' : ¬(-valueCompare (GetValue m t2 c) (GetValue m t1 c) = 0) := by omega
      rw [if_neg h', if_neg h]

theorem compareLoop_eq_zero_iff (m : Mem) (t1 t2 : Tuple) (cs : List Nat) :
    compareLoop m t1 t2 cs = 0 ↔
      ∀ c ∈ cs, valueKey (GetValue m t1 c) = valueKey (GetValue m t2 c) := by
  induction cs with
  | nil => simp [compareLoop]
  | cons c rest ih =>
    simp only [compareLoop]
    by_cases h : valueCompare (GetValue m t1 c) (GetValue m t2 c) = 0
    · have hk := (valueCompare_eq_zero_iff _ _).mp h
      simp [h, ih, hk]
    · have hk : ¬(valueKey (GetValue m t1 c) = valueKey (GetValue m t2 c)) := by
        intro he
        exact h ((valueCompare_eq_zero_iff _ _).mpr he)
      simp [h, hk]

theorem foldl_hashCombine_congr (f g : Nat → Value) (cs : List Nat) (s : Nat)
    (h : ∀ c ∈ cs, valueKey (f c) = valueKey (g c)) :
    cs.foldl (fun s c => hashCombine s (f c)) s =
      cs.foldl (fun s c => hashCombine s (g c)) s := by
  induction cs generalizing s with
  | nil => rfl
  | cons c rest ih =>
    simp only [List.foldl_cons]
    have hc : hashCombine s (f c) = hashCombine s (g c) := by
      unfold hashCombine
      rw [h c (by simp)]
    rw [hc]
    exact ih _ (fun c hc => h c (by simp [hc]))

/-- C5: over the same schema, `EqualsNoSchemaCheck`-equal tuples have equal
`HashCode`; the hash folds every column's contribution into a running seed
in schema order, starting from the fixed initial seed 0. -/
theorem equalsNoSchemaCheck_implies_hashCode_eq (m : Mem) (t1 t2 : Tuple)
    (hs : t1.schema = t2.schema)
    (h : EqualsNoSchemaCheck m t1 t2 = true) :
    HashCode m t1 = HashCode m t2 := by
  unfold HashCode HashCodeSeeded
  have hkeys := (equalsNoSchemaCheck_iff_keys m t1 t2).mp h
  rw [← hs]
  exact foldl_hashCombine_congr (GetValue m t1) (GetValue m t2) _ 0 hkeys

/-- Witness for C5: two single-varchar-column tuples whose indirection
records point at distinct pool blocks with the same payload are
`EqualsNoSchemaCheck`-equal and hash equal. -/
theorem equalsNoSchemaCheck_implies_hashCode_eq_witness :
    (Tuple.mk 0 ⟨[⟨.varchar, false⟩]⟩ [.ref (some 0)]).schema =
        (Tuple.mk 1 ⟨[⟨.varchar, false⟩]⟩ [.ref (some 1)]).schema ∧
      EqualsNoSchemaCheck ⟨[some [7, 8], some [7, 8]]⟩
        (Tuple.mk 0 ⟨[⟨.varchar, false⟩]⟩ [.ref (some 0)])
        (Tuple.mk 1 ⟨[⟨.varchar, false⟩]⟩ [.ref (some 1)]) = true ∧
      HashCode ⟨[some [7, 8], some [7, 8]]⟩
          (Tuple.mk 0 ⟨[⟨.varchar, false⟩]⟩ [.ref (some 0)]) =
        HashCode ⟨[some [7, 8], some [7, 8]]⟩
          (Tuple.mk 1 ⟨[⟨.varchar, false⟩]⟩ [.ref (some 1)]) :=
  ⟨rfl, by decide,
    equalsNoSchemaCheck_implies_hashCode_eq _ _ _ rfl (by decide)⟩

/-- C6: `operator==` is true exactly when both tuples reference the
identical schema object (by identity, modelled by `schemaId`) and are
column-wise value-equal; in particular `==` implies
`EqualsNoSchemaCheck`. -/
theorem operatorEq_iff_schemaIdentity_and_equals (m : Mem) (t other : Tuple) :
    tupleEq m t other = true ↔
      t.schemaId = other.schemaId ∧ EqualsNoSchemaCheck m t other = true := by
  unfold tupleEq
  by_cases h : t.schemaId = other.schemaId <;> simp [h]

/-- C7: over the same schema, `Compare` is sign-antisymmetric and returns
0 exactly when all columns are equal, i.e. exactly when
`EqualsNoSchemaCheck` holds. -/
theorem compare_antisym_and_zero_iff_equals (m : Mem) (t1 t2 : Tuple)
    (hs : t1.schema = t2.schema) :
    Compare m t1 t2 = -Compare m t2 t1 ∧
      (Compare m t1 t2 = 0 ↔ EqualsNoSchemaCheck m t1 t2 = true) := by
  constructor
  · unfold Compare
    rw [← hs]
    exact compareLoop_antisym m t1 t2 _
  · unfold Compare
    rw [compareLoop_eq_zero_iff, equalsNoSchemaCheck_iff_keys]

/-- Witness for C7: two concrete single-integer-column tuples with values
1 and 2: the comparison is -1, its flip 1, and neither 0 nor equal. -/
theorem compare_antisym_and_zero_iff_equals_witness :
    (Tuple.mk 0 ⟨[⟨.integer, true⟩]⟩ [.inlined (some 1)]).schema =
        (Tuple.mk 0 ⟨[⟨.integer, true⟩]⟩ [.inlined (some 2)]).schema ∧
      (Compare ⟨[]⟩ (Tuple.mk 0 ⟨[⟨.integer, true⟩]⟩ [.inlined (some 1)])
          (Tuple.mk 0 ⟨[⟨.integer, true⟩]⟩ [.inlined (some 2)]) =
        -Compare ⟨[]⟩ (Tuple.mk 0 ⟨[⟨.integer, true⟩]⟩ [.inlined (some 2)])
          (Tuple.mk 0 ⟨[⟨.integer, true⟩]⟩ [.inlined (some 1)]) ∧
      (Compare ⟨[]⟩ (Tuple.mk 0 ⟨[⟨.integer, true⟩]⟩ [.inlined (some 1)])
          (Tuple.mk 0 ⟨[⟨.integer, true⟩]⟩ [.inlined (some 2)]) = 0 ↔
        EqualsNoSchemaCheck ⟨[]⟩ (Tuple.mk 0 ⟨[⟨.integer, true⟩]⟩ [.inlined (some 1)])
          (Tuple.mk 0 ⟨[⟨.integer, true⟩]⟩ [.inlined (some 2)]) = true)) :=
  ⟨rfl, compare_antisym_and_zero_iff_equals _ _ _ rfl⟩

/-! ### Export serialization size (claim C4) -/

/-- Stated from the spec's size table (§4.3): the claimed per-column
export byte contribution, to be compared against the source's switch. -/
def exportColSizeSpec (m : Mem) (t : Tuple) (c : Nat) : Nat :=
  match t.schema.colType c with
  | .tinyint | .smallint | .integer | .bigint | .timestamp | .double => 8
  | .decimal => 4 + maxDecimalPrecision + 1 + 1
  | .varchar | .varbinary =>
    if (GetValue m t c).isNull then 0 else 4 + peekObjectLength (GetValue m t c)
  | .invalid => 0

/-- Stated from the spec: the claimed total export size, the sum of the
per-column contributions over all columns. -/
def exportSizeSpec (m : Mem) (t : Tuple) : Nat :=
  ((List.range t.schema.columnCount).map (exportColSizeSpec m t)).sum

/-- The column types the export serialization switch recognizes. -/
def isSupportedExportType : ValueType → Bool
  | .invalid => false
  | _ => true

theorem exportColSize_supported (m : Mem) (t : Tuple) (c : Nat)
    (h : isSupportedExportType (t.schema.colType c) = true) :
    exportColSize m t c = .ok (exportColSizeSpec m t c) := by
  unfold exportColSize exportColSizeSpec
  rcases hty : t.schema.colType c <;> simp_all [isSupportedExportType] <;>
    cases hnull : (GetValue m t c).isNull <;> simp [hnull]

theorem exportColSize_unsupported (m : Mem) (t : Tuple) (c : Nat)
    (h : isSupportedExportType (t.schema.colType c) = false) :
    exportColSize m t c = .error .unknownType := by
  unfold exportColSize
  rcases hty : t.schema.colType c <;> simp_all [isSupportedExportType]

theorem exportSizeLoop_supported (m : Mem) (t : Tuple) (cs : List Nat)
    (h : ∀ c ∈ cs, isSupportedExportType (t.schema.colType c) = true) :
    exportSizeLoop m t cs = .ok ((cs.map (exportColSizeSpec m t)).sum) := by
  induction cs with
  | nil => rfl
  | cons c rest ih =>
    simp only [exportSizeLoop, List.map_cons, List.sum_cons]
    rw [exportColSize_supported m t c (h c (by simp)),
      ih (fun c hc => h c (by simp [hc]))]

theorem exportSizeLoop_unsupported (m : Mem) (t : Tuple) (cs : List Nat)
    (h : ∃ c ∈ cs, isSupportedExportType (t.schema.colType c) = false) :
    exportSizeLoop m t cs = .error .unknownType := by
  induction cs with
  | nil => simp at h
  | cons c rest ih =>
    simp only [exportSizeLoop]
    by_cases hc : isSupportedExportType (t.schema.colType c) = true
    · rw [exportColSize_supported m t c hc]
      have hrest : ∃ c ∈ rest, isSupportedExportType (t.schema.colType c) = false := by
        obtain ⟨c0, hc0, hc0f⟩ := h
        rcases List.mem_cons.mp hc0 with he | hm
        · rw [he] at hc0f
          rw [hc0f] at hc
          exact absurd hc (by simp)
        · exact ⟨c0, hm, hc0f⟩
      rw [ih hrest]
    · rw [exportColSize_unsupported m t c (by simpa using hc)]

/-- C4: `ExportSerializationSize` returns the sum over all columns of the
spec's size table (8 bytes for the fixed numeric kinds, 4 + max decimal
precision + 1 + 1 for decimals, 4 + payload length for non-null
variable-length columns, 0 for null ones) when all column types are
recognized, and fails with `UnknownTypeError` when any column has an
unrecognized type. -/
theorem exportSerializationSize_spec (m : Mem) (t : Tuple) :
    ((∀ c < t.schema.columnCount, isSupportedExportType (t.schema.colType c) = true) →
      ExportSerializationSize m t = .ok (exportSizeSpec m t)) ∧
    ((∃ c < t.schema.columnCount, isSupportedExportType (t.schema.colType c) = false) →
      ExportSerializationSize m t = .error .unknownType) := by
  constructor
  · intro h
    unfold ExportSerializationSize exportSizeSpec
    exact exportSizeLoop_supported m t _ (fun c hc => h c (List.mem_range.mp hc))
  · intro h
    obtain ⟨c, hc, hcf⟩ := h
    exact exportSizeLoop_unsupported m t _ ⟨c, List.mem_range.mpr hc, hcf⟩

/-- Witness for C4: the spec's concrete scenario, schema
`[INTEGER, VARCHAR]` with values `(42, "peloton")` gives 8 + (4 + 7) = 19
bytes; and a tuple with an unrecognized column type fails with
`UnknownTypeError`. -/
theorem exportSerializationSize_spec_witness :
    exportSizeSpec ⟨[some [112, 101, 108, 111, 116, 111, 110]]⟩
        (Tuple.mk 0 ⟨[⟨.integer, true⟩, ⟨.varchar, false⟩]⟩
          [.inlined (some 42), .ref (some 0)]) = 19 ∧
      ExportSerializationSize ⟨[some [112, 101, 108, 111, 116, 111, 110]]⟩
        (Tuple.mk 0 ⟨[⟨.integer, true⟩, ⟨.varchar, false⟩]⟩
          [.inlined (some 42), .ref (some 0)]) = .ok 19 ∧
      ExportSerializationSize ⟨[]⟩
        (Tuple.mk 0 ⟨[⟨.invalid, true⟩]⟩ [.inlined none]) = .error .unknownType := by
  refine ⟨by decide, ?_, ?_⟩
  · have h := (exportSerializationSize_spec ⟨[some [112, 101, 108, 111, 116, 111, 110]]⟩
      (Tuple.mk 0 ⟨[⟨.integer, true⟩, ⟨.varchar, false⟩]⟩
        [.inlined (some 42), .ref (some 0)])).1 (by decide)
    rw [h]
    decide
  · exact (exportSerializationSize_spec ⟨[]⟩
      (Tuple.mk 0 ⟨[⟨.invalid, true⟩]⟩ [.inlined none])).2 ⟨0, by decide, by decide⟩

/-! ### Frame effect of the read-only operations (claim C10) -/

theorem equalsLoopS_spec (other : Tuple) (cs : List Nat) (t : Tuple) (m : Mem) :
    equalsLoopS other cs t m =
      (cs.all (fun c => !opNotEqualsIsTrue (GetValue m t c) (GetValue m other c)), t, m) := by
  induction cs with
  | nil => rfl
  | cons c rest ih =>
    simp only [equalsLoopS, getValueS, List.all_cons]
    by_cases h : opNotEqualsIsTrue (GetValue m t c) (GetValue m other c) <;> simp [h, ih]

theorem compareLoopS_spec (other : Tuple) (cs : List Nat) (t : Tuple) (m : Mem) :
    compareLoopS other cs t m = (compareLoop m t other cs, t, m) := by
  induction cs with
  | nil => rfl
  | cons c rest ih =>
    simp only [compareLoopS, compareLoop, getValueS]
    by_cases h : valueCompare (GetValue m t c) (GetValue m other c) = 0 <;> simp [h, ih]

theorem hashLoopS_spec (cs : List Nat) (s : Nat) (t : Tuple) (m : Mem) :
    hashLoopS cs s t m =
      (cs.foldl (fun s c => hashCombine s (GetValue m t c)) s, t, m) := by
  induction cs generalizing s with
  | nil => rfl
  | cons c rest ih => simp [hashLoopS, getValueS, ih]

theorem exportSizeLoopS_spec (cs : List Nat) (t : Tuple) (m : Mem) :
    exportSizeLoopS cs t m = (exportSizeLoop m t cs, t, m) := by
  induction cs with
  | nil => rfl
  | cons c rest ih =>
    simp only [exportSizeLoopS, exportSizeLoop]
    rcases h : exportColSize m t c with e | b
    · rfl
    · rw [ih]
      rcases exportSizeLoop m t rest with e | s <;> rfl

/-- C10: the state-threaded translations of the read-only operations
`EqualsNoSchemaCheck`, `Compare`, `HashCode` and `ExportSerializationSize`
return the tuple binding and the pool exactly as they were, together with
the value the pure operation computes: the backing buffer and schema
binding after each call equal those before it. -/
theorem readOnly_ops_frame (t other : Tuple) (m : Mem) :
    EqualsNoSchemaCheckS t other m = (EqualsNoSchemaCheck m t other, t, m) ∧
      CompareS t other m = (Compare m t other, t, m) ∧
      HashCodeS t m = (HashCode m t, t, m) ∧
      ExportSerializationSizeS t m = (ExportSerializationSize m t, t, m) :=
  ⟨equalsLoopS_spec other _ t m, compareLoopS_spec other _ t m,
    hashLoopS_spec _ 0 t m, exportSizeLoopS_spec _ t m⟩

/-! ### Export null bitmap (claim C3) -/

/-- Read bit `k` of a byte-array bitmap under the source's big-endian
within-byte numbering: byte `k >> 3`, mask `0x80 >> (k % 8)`. -/
def bitGet (arr : List Nat) (k : Nat) : Bool :=
  (arr.getD (k >>> 3) 0).testBit (7 - k % 8)

theorem shiftRight3_eq_div8 (n : Nat) : n >>> 3 = n / 8 := by
  rw [Nat.shiftRight_eq_div_pow]

theorem mask_eq_two_pow (r : Nat) (h : r < 8) : 128 >>> r = 2 ^ (7 - r) := by
  have h8 : r = 0 ∨ r = 1 ∨ r = 2 ∨ r = 3 ∨ r = 4 ∨ r = 5 ∨ r = 6 ∨ r = 7 := by omega
  rcases h8 with h | h | h | h | h | h | h | h <;> subst h <;> decide

theorem bitGet_setNullBit (arr : List Nat) (i : Nat) (hb : i >>> 3 < arr.length) (k : Nat) :
    (bitGet (arr.set (i >>> 3) ((arr.getD (i >>> 3) 0) ||| (128 >>> (i % 8)))) k = true ↔
      (bitGet arr k = true ∨ i = k)) := by
  by_cases hkb : k >>> 3 = i >>> 3
  · unfold bitGet
    rw [hkb]
    unfold List.getD
    rw [List.get?_set_eq_of_lt _ hb]
    simp only [Option.getD_some]
    rw [mask_eq_two_pow (i % 8) (Nat.mod_lt _ (by norm_num))]
    rw [Nat.testBit_lor]
    by_cases hm : i % 8 = k % 8
    · have h7 : 7 - i % 8 = 7 - k % 8 := by omega
      rw [h7, Nat.testBit_two_pow_self]
      have hik : i = k := by
        rw [shiftRight3_eq_div8, shiftRight3_eq_div8] at hkb
        omega
      simp [hik, bitGet, List.getD]
    · have h7 : 7 - i % 8 ≠ 7 - k % 8 := by
        have : i % 8 < 8 := Nat.mod_lt _ (by norm_num)
        have : k % 8 < 8 := Nat.mod_lt _ (by norm_num)
        omega
      rw [Nat.testBit_two_pow_of_ne h7]
      have hik : ¬(i = k) := fun he => hm (by rw [he])
      simp [hik, bitGet, List.getD, hkb]
  · unfold bitGet
    unfold List.getD
    rw [List.get?_set_ne _ _ (fun he => hkb he.symm)]
    have hik : ¬(i = k) := fun he => hkb (by rw [he])
    simp [hik]

theorem exportLoop_spec (m : Mem) (t : Tuple) (off : Nat) :
    ∀ (cs : List Nat) (out arr : List Nat),
      (∀ c ∈ cs, (off + c) >>> 3 < arr.length) →
      (exportLoop m t off cs (out, arr)).1 =
        out ++ (cs.map (fun c =>
          if (GetValue m t c).isNull then [] else valueSerializeToExport (GetValue m t c))).flatten ∧
      (exportLoop m t off cs (out, arr)).2.length = arr.length ∧
      (∀ k, bitGet (exportLoop m t off cs (out, arr)).2 k = true ↔
        (bitGet arr k = true ∨ ∃ c ∈ cs, (GetValue m t c).isNull = true ∧ off + c = k)) := by
  intro cs
  induction cs with
  | nil => intro out arr _; simp [exportLoop]
  | cons c rest ih =>
    intro out arr hbound
    by_cases hnull : (GetValue m t c).isNull
    · simp only [exportLoop]
      rw [if_pos hnull]
      have hb : (off + c) >>> 3 < arr.length := hbound c (by simp)
      set arr' := arr.set ((off + c) >>> 3)
        ((arr.getD ((off + c) >>> 3) 0) ||| (128 >>> ((off + c) % 8))) with harr'
      have hlen' : arr'.length = arr.length := by simp [harr']
      have hrest : ∀ c' ∈ rest, (off + c') >>> 3 < arr'.length := by
        intro c' hc'
        rw [hlen']
        exact hbound c' (by simp [hc'])
      obtain ⟨h1, h2, h3⟩ := ih out arr' hrest
      refine ⟨by simpa [hnull] using h1, by rw [h2, hlen'], ?_⟩
      intro k
      rw [h3 k]
      have hset := bitGet_setNullBit arr (off + c) hb k
      rw [hset]
      constructor
      · rintro ((hba | hoc) | ⟨c', hc', hn', he'⟩)
        · exact Or.inl hba
        · exact Or.inr ⟨c, by simp, hnull, hoc⟩
        · exact Or.inr ⟨c', by simp [hc'], hn', he'⟩
      · rintro (hba | ⟨c', hc', hn', he'⟩)
        · exact Or.inl (Or.inl hba)
        · rcases List.mem_cons.mp hc' with he | hm
          · subst he
            exact Or.inl (Or.inr he')
          · exact Or.inr ⟨c', hm, hn', he'⟩
    · simp only [exportLoop]
      rw [if_neg hnull]
      have hrest : ∀ c' ∈ rest, (off + c') >>> 3 < arr.length :=
        fun c' hc' => hbound c' (by simp [hc'])
      obtain ⟨h1, h2, h3⟩ := ih (out ++ valueSerializeToExport (GetValue m t c)) arr hrest
      refine ⟨by simpa [hnull, List.append_assoc] using h1, h2, ?_⟩
      intro k
      rw [h3 k]
      constructor
      · rintro (hba | ⟨c', hc', hn', he'⟩)
        · exact Or.inl hba
        · exact Or.inr ⟨c', by simp [hc'], hn', he'⟩
      · rintro (hba | ⟨c', hc', hn', he'⟩)
        · exact Or.inl hba
        · rcases List.mem_cons.mp hc' with he | hm
          · subst he
            rw [hn'] at hnull
            exact absurd rfl hnull
          · exact Or.inr ⟨c', hm, hn', he'⟩

/-- C3: `SerializeToExport` visits columns in schema order; a null column
emits zero bytes and OR-s exactly the mask `0x80 >> ((colOffset + c) % 8)`
into bitmap byte `(colOffset + c) >> 3`, leaving all other bits unchanged;
a non-null column sets no bitmap bit and delegates its bytes to the
value's export encoding. -/
theorem serializeToExport_spec (m : Mem) (t : Tuple) (off : Nat) (arr : List Nat)
    (harr : ∀ c < t.schema.columnCount, (off + c) >>> 3 < arr.length) :
    (SerializeToExport m t off arr).1 =
      ((List.range t.schema.columnCount).map (fun c =>
        if (GetValue m t c).isNull then [] else valueSerializeToExport (GetValue m t c))).flatten ∧
      (SerializeToExport m t off arr).2.length = arr.length ∧
      (∀ k, bitGet (SerializeToExport m t off arr).2 k = true ↔
        (bitGet arr k = true ∨
          ∃ c ∈ List.range t.schema.columnCount,
            (GetValue m t c).isNull = true ∧ off + c = k)) := by
  have h := exportLoop_spec m t off (List.range t.schema.columnCount) [] arr
    (fun c hc => harr c (List.mem_range.mp hc))
  simpa [SerializeToExport] using h

/-- Witness for C3: the spec's concrete scenario — schema
`[INTEGER, VARCHAR]`, values `(42, NULL)`, `colOffset = 0`, one-byte
bitmap `[0]`: column 0 writes exactly 8 bytes, column 1 writes none, and
exactly bit 1 of the bitmap turns on (`0x80 >> 1 = 64`). -/
theorem serializeToExport_spec_witness :
    ((SerializeToExport ⟨[]⟩
        (Tuple.mk 0 ⟨[⟨.integer, true⟩, ⟨.varchar, false⟩]⟩
          [.inlined (some 42), .ref none]) 0 [0]).1 =
      ((List.range (2 : Nat)).map (fun c =>
        if (GetValue ⟨[]⟩ (Tuple.mk 0 ⟨[⟨.integer, true⟩, ⟨.varchar, false⟩]⟩
            [.inlined (some 42), .ref none]) c).isNull then []
        else valueSerializeToExport (GetValue ⟨[]⟩
          (Tuple.mk 0 ⟨[⟨.integer, true⟩, ⟨.varchar, false⟩]⟩
            [.inlined (some 42), .ref none]) c))).flatten ∧
      (SerializeToExport ⟨[]⟩
        (Tuple.mk 0 ⟨[⟨.integer, true⟩, ⟨.varchar, false⟩]⟩
          [.inlined (some 42), .ref none]) 0 [0]).2.length = ([0] : List Nat).length ∧
      (∀ k, bitGet (SerializeToExport ⟨[]⟩
          (Tuple.mk 0 ⟨[⟨.integer, true⟩, ⟨.varchar, false⟩]⟩
            [.inlined (some 42), .ref none]) 0 [0]).2 k = true ↔
        (bitGet [0] k = true ∨
          ∃ c ∈ List.range (2 : Nat), (GetValue ⟨[]⟩
            (Tuple.mk 0 ⟨[⟨.integer, true⟩, ⟨.varchar, false⟩]⟩
              [.inlined (some 42), .ref none]) c).isNull = true ∧ 0 + c = k))) ∧
    (SerializeToExport ⟨[]⟩
      (Tuple.mk 0 ⟨[⟨.integer, true⟩, ⟨.varchar, false⟩]⟩
        [.inlined (some 42), .ref none]) 0 [0]).1.length = 8 ∧
    (SerializeToExport ⟨[]⟩
      (Tuple.mk 0 ⟨[⟨.integer, true⟩, ⟨.varchar, false⟩]⟩
        [.inlined (some 42), .ref none]) 0 [0]).2 = [64] :=
  ⟨serializeToExport_spec ⟨[]⟩
      (Tuple.mk 0 ⟨[⟨.integer, true⟩, ⟨.varchar, false⟩]⟩
        [.inlined (some 42), .ref none]) 0 [0] (by decide),
    by decide, by decide⟩

/-! ### Byte accounting of deserialization (claim C9) -/

theorem valueDeserializeFrom_ok (pool : Bool) (m : Mem) (col : Column) (input : List Nat)
    (slot : Slot) (m1 : Mem) (k : Nat) (rest : List Nat)
    (h : valueDeserializeFrom pool m col input = .ok (slot, m1, k, rest)) :
    rest = input.drop k ∧ k ≤ input.length ∧ (pool = false → m1 = m) := by
  unfold valueDeserializeFrom readN at h
  by_cases hv : isVarlenType col.type
  · rw [if_pos hv] at h
    by_cases h4 : 4 ≤ input.length
    · rw [if_pos h4] at h
      simp only at h
      by_cases hnm : bytesToNat (input.take 4) = nullMarker32
      · rw [if_pos hnm] at h
        simp only [Except.ok.injEq, Prod.mk.injEq] at h
        obtain ⟨-, hm, hk, hr⟩ := h
        subst hm hk hr
        exact ⟨rfl, h4, fun _ => rfl⟩
      · rw [if_neg hnm] at h
        by_cases hp : pool
        · rw [if_pos hp] at h
          by_cases hlen : bytesToNat (input.take 4) ≤ (input.drop 4).length
          · rw [if_pos hlen] at h
            simp only [Mem.alloc, Except.ok.injEq, Prod.mk.injEq] at h
            obtain ⟨-, hm, hk, hr⟩ := h
            subst hm hk hr
            refine ⟨by rw [List.drop_drop, Nat.add_comm], ?_, fun hfp => by simp [hp] at hfp⟩
            have : (input.drop 4).length = input.length - 4 := by simp
            omega
          · rw [if_neg hlen] at h
            exact absurd h (by simp)
        · rw [if_neg hp] at h
          exact absurd h (by simp)
    · rw [if_neg h4] at h
      exact absurd h (by simp)
  · rw [if_neg hv] at h
    by_cases h8 : 8 ≤ input.length
    · rw [if_pos h8] at h
      simp only [Except.ok.injEq, Prod.mk.injEq] at h
      obtain ⟨-, hm, hk, hr⟩ := h
      subst hm hk hr
      exact ⟨rfl, h8, fun _ => rfl⟩
    · rw [if_neg h8] at h
      exact absurd h (by simp)

theorem deserializeCols_ok (pool : Bool) (cols : List Column) :
    ∀ (m : Mem) (input : List Nat) (slots : List Slot) (m1 : Mem) (k : Nat) (rest : List Nat),
      deserializeCols pool cols m input = .ok (slots, m1, k, rest) →
      rest = input.drop k ∧ k ≤ input.length ∧ (pool = false → m1 = m) ∧
        slots.length = cols.length := by
  induction cols with
  | nil =>
    intro m input slots m1 k rest h
    simp only [deserializeCols, Except.ok.injEq, Prod.mk.injEq] at h
    obtain ⟨hs, hm, hk, hr⟩ := h
    subst hs hm hk hr
    exact ⟨rfl, by omega, fun _ => rfl, rfl⟩
  | cons col cols ih =>
    intro m input slots m1 k rest h
    simp only [deserializeCols] at h
    rcases h1 : valueDeserializeFrom pool m col input with e | ⟨slot, mh, kh, inputh⟩
    · rw [h1] at h
      simp at h
    · rw [h1] at h
      simp only at h
      rcases h2 : deserializeCols pool cols mh inputh with e | ⟨slotsr, mr, kr, inputr⟩
      · rw [h2] at h
        simp at h
      · rw [h2] at h
        simp only [Except.ok.injEq, Prod.mk.injEq] at h
        obtain ⟨hs, hm, hk, hr⟩ := h
        subst hs hm hk hr
        obtain ⟨hr1, hk1, hp1⟩ := valueDeserializeFrom_ok pool m col input _ _ _ _ h1
        obtain ⟨hr2, hk2, hp2, hlen2⟩ := ih mh inputh _ _ _ _ h2
        subst hr1 hr2
        refine ⟨by rw [List.drop_drop, Nat.add_comm], ?_, ?_, by simp [hlen2]⟩
        · have : (input.drop kh).length = input.length - kh := by simp
          omega
        · intro hfp
          rw [hp2 hfp, hp1 hfp]

/-- C9: when `DeserializeWithHeaderFrom` succeeds it returns the exact
number of bytes consumed from the input: 4 bytes of size header plus the
sum of the per-column consumed byte counts, with no pool supplied to the
per-column deserialization on this path (the pool is left untouched). -/
theorem deserializeWithHeaderFrom_spec (t : Tuple) (m : Mem) (input : List Nat)
    (t' : Tuple) (m' : Mem) (total : Nat) (rest : List Nat)
    (h : DeserializeWithHeaderFrom t m input = .ok (t', m', total, rest)) :
    m' = m ∧
      total = input.length - rest.length ∧
      rest = input.drop total ∧
      ∃ slots k, deserializeCols false t.schema.cols m (input.drop 4) =
          .ok (slots, m, k, rest) ∧ total = 4 + k := by
  unfold DeserializeWithHeaderFrom readN at h
  by_cases h4 : 4 ≤ input.length
  · rw [if_pos h4] at h
    simp only at h
    rcases h2 : deserializeCols false t.schema.cols m (input.drop 4) with e | ⟨slots, mr, kr, inputr⟩
    · rw [h2] at h
      exact absurd h (by simp)
    · rw [h2] at h
      simp only [Except.ok.injEq, Prod.mk.injEq] at h
      obtain ⟨-, hm, hk, hr⟩ := h
      subst hm hk hr
      obtain ⟨hrest, hkle, hpool, -⟩ := deserializeCols_ok false t.schema.cols m _ _ _ _ _ h2
      have hmr : mr = m := hpool rfl
      subst hmr hrest
      have hdlen : (input.drop 4).length = input.length - 4 := by simp
      refine ⟨rfl, ?_, ?_, ?_⟩
      · simp only [List.length_drop]
        omega
      · rw [List.drop_drop, Nat.add_comm]
      · exact ⟨slots, kr, rfl, rfl⟩
  · rw [if_neg h4] at h
    exact absurd h (by simp)

/-- Witness for C9: a single-integer-column tuple deserialized from a
12-byte stream (4-byte header + 8-byte value 42) consumes exactly 12
bytes. -/
theorem deserializeWithHeaderFrom_spec_witness :
    DeserializeWithHeaderFrom (Tuple.mk 0 ⟨[⟨.integer, true⟩]⟩ [.inlined none]) ⟨[]⟩
        (natToBytes 4 8 ++ natToBytes 8 42) =
      .ok (Tuple.mk 0 ⟨[⟨.integer, true⟩]⟩ [.inlined (some 42)], ⟨[]⟩, 12, []) ∧
      (⟨[]⟩ : Mem) = ⟨[]⟩ ∧
      (12 : Nat) = (natToBytes 4 8 ++ natToBytes 8 42).length - ([] : List Nat).length ∧
      ([] : List Nat) = (natToBytes 4 8 ++ natToBytes 8 42).drop 12 ∧
      ∃ slots k,
        deserializeCols false [⟨.integer, true⟩] ⟨[]⟩
            ((natToBytes 4 8 ++ natToBytes 8 42).drop 4) = .ok (slots, ⟨[]⟩, k, []) ∧
          12 = 4 + k :=
  ⟨by decide,
    deserializeWithHeaderFrom_spec (Tuple.mk 0 ⟨[⟨.integer, true⟩]⟩ [.inlined none]) ⟨[]⟩
      (natToBytes 4 8 ++ natToBytes 8 42)
      (Tuple.mk 0 ⟨[⟨.integer, true⟩]⟩ [.inlined (some 42)]) ⟨[]⟩ 12 [] (by decide)⟩

/-! ### Storage round trip: per-value step lemmas (claims C2, C8) -/

/-- A slot whose indirection (if any) points below the pool's allocation
frontier; such slots read the same under any pool extension. -/
def slotStable (m : Mem) : Slot → Prop
  | .ref (some a) => a < m.blocks.length
  | _ => True

theorem slotStable_ext {m m' : Mem} (h : Mem.ext m m') {s : Slot} (hs : slotStable m s) :
    slotStable m' s := by
  cases s with
  | inlined v => trivial
  | ref p =>
    cases p with
    | none => trivial
    | some a => exact lt_of_lt_of_le hs (Mem.ext_length h)

theorem slotValue_ext {m m' : Mem} (h : Mem.ext m m') (ty : ValueType) {s : Slot}
    (hs : slotStable m s) : slotValue m' ty s = slotValue m ty s := by
  cases s with
  | inlined v => rfl
  | ref p =>
    cases p with
    | none => rfl
    | some a => simp [slotValue, Mem.lookup_ext h hs]

/-- The slot `Value::DeserializeFrom` writes for a serialized value. -/
def valueToSlot (m : Mem) : Value → Slot
  | .fixed _ x => .inlined x
  | .varlen _ none => .ref none
  | .varlen _ (some _) => .ref (some m.blocks.length)

/-- The pool state after `Value::DeserializeFrom` of a serialized value. -/
def memAfterValue (m : Mem) : Value → Mem
  | .varlen _ (some p) => (m.alloc p).2
  | _ => m

theorem mem_ext_memAfterValue (m : Mem) (v : Value) : Mem.ext m (memAfterValue m v) := by
  cases v with
  | fixed ty x => exact Mem.ext_refl m
  | varlen ty p =>
    cases p with
    | none => exact Mem.ext_refl m
    | some pl => exact Mem.ext_alloc m pl

theorem nullMarker32_lt : nullMarker32 < 256 ^ 4 := by norm_num [nullMarker32]

theorem readN_exact (bs rest : List Nat) (w : Nat) (hw : bs.length = w) :
    readN w (bs ++ rest) = .ok (bytesToNat bs, rest) := by
  unfold readN
  rw [if_pos (by simp [hw])]
  subst hw
  rw [List.take_left, List.drop_left]

theorem wfValForCol_fixed {col : Column} {ty : ValueType} {x : Option Int}
    (hwf : wfValForCol col (.fixed ty x) = true) :
    ty = col.type ∧ isVarlenType col.type = false ∧
      (∀ y, x = some y → -(2 ^ 63 : Int) < y ∧ y < 2 ^ 63) := by
  simp only [wfValForCol, Bool.and_eq_true, beq_iff_eq, Bool.not_eq_true'] at hwf
  obtain ⟨⟨hty, hvt⟩, hbound⟩ := hwf
  refine ⟨hty, hvt, ?_⟩
  intro y hy
  subst hy
  simpa using of_decide_eq_true hbound

theorem wfValForCol_varlen {col : Column} {ty : ValueType} {p : Option (List Nat)}
    (hwf : wfValForCol col (.varlen ty p) = true) :
    ty = col.type ∧ isVarlenType col.type = true ∧
      (∀ pl, p = some pl → pl.length < 2 ^ 32 - 1) := by
  simp only [wfValForCol, Bool.and_eq_true, beq_iff_eq] at hwf
  obtain ⟨⟨hty, hvt⟩, hbound⟩ := hwf
  refine ⟨hty, hvt, ?_⟩
  intro pl hpl
  subst hpl
  exact of_decide_eq_true hbound

theorem valueDeserializeFrom_serialized_pool (m : Mem) (col : Column) (v : Value)
    (rest : List Nat) (hwf : wfValForCol col v = true) :
    valueDeserializeFrom true m col (valueSerializeTo v ++ rest) =
      .ok (valueToSlot m v, memAfterValue m v, (valueSerializeTo v).length, rest) := by
  cases v with
  | fixed ty x =>
    obtain ⟨hty, hvt, hbound⟩ := wfValForCol_fixed hwf
    simp only [valueSerializeTo, valueToSlot, memAfterValue]
    unfold valueDeserializeFrom
    rw [if_neg (by simp [hvt])]
    rw [readN_exact (encodeFixed8 x) rest 8 (length_encodeFixed8 x)]
    simp only
    rw [decodeFixed8_encodeFixed8 x hbound, length_encodeFixed8]
  | varlen ty p =>
    obtain ⟨hty, hvt, hbound⟩ := wfValForCol_varlen hwf
    cases p with
    | none =>
      simp only [valueSerializeTo, valueToSlot, memAfterValue]
      unfold valueDeserializeFrom
      rw [if_pos hvt]
      rw [readN_exact (natToBytes 4 nullMarker32) rest 4 (length_natToBytes 4 _)]
      simp only
      rw [bytesToNat_natToBytes 4 nullMarker32 nullMarker32_lt]
      rw [if_pos rfl, length_natToBytes]
    | some pl =>
      have hpl : pl.length < 2 ^ 32 - 1 := hbound pl rfl
      simp only [valueSerializeTo, valueToSlot, memAfterValue]
      unfold valueDeserializeFrom
      rw [List.append_assoc]
      rw [if_pos hvt]
      rw [readN_exact (natToBytes 4 pl.length) (pl ++ rest) 4 (length_natToBytes 4 _)]
      simp only
      rw [bytesToNat_natToBytes 4 pl.length (by omega)]
      rw [if_neg (by simp only [nullMarker32]; omega)]
      rw [if_pos trivial]
      rw [if_pos (by simp)]
      rw [List.take_left, List.drop_left]
      simp [Mem.alloc, length_natToBytes, Nat.add_comm]

theorem valueDeserializeFrom_serialized_noalloc (pool : Bool) (m : Mem) (col : Column)
    (v : Value) (rest : List Nat) (hwf : wfValForCol col v = true)
    (hnn : isNonNullVarlen v = false) :
    valueDeserializeFrom pool m col (valueSerializeTo v ++ rest) =
      .ok (valueToSlot m v, m, (valueSerializeTo v).length, rest) := by
  cases v with
  | fixed ty x =>
    obtain ⟨hty, hvt, hbound⟩ := wfValForCol_fixed hwf
    simp only [valueSerializeTo, valueToSlot]
    unfold valueDeserializeFrom
    rw [if_neg (by simp [hvt])]
    rw [readN_exact (encodeFixed8 x) rest 8 (length_encodeFixed8 x)]
    simp only
    rw [decodeFixed8_encodeFixed8 x hbound, length_encodeFixed8]
  | varlen ty p =>
    cases p with
    | none =>
      obtain ⟨hty, hvt, -⟩ := wfValForCol_varlen hwf
      simp only [valueSerializeTo, valueToSlot]
      unfold valueDeserializeFrom
      rw [if_pos hvt]
      rw [readN_exact (natToBytes 4 nullMarker32) rest 4 (length_natToBytes 4 _)]
      simp only
      rw [bytesToNat_natToBytes 4 nullMarker32 nullMarker32_lt]
      rw [if_pos rfl, length_natToBytes]
    | some pl => simp [isNonNullVarlen] at hnn

theorem valueDeserializeFrom_serialized_missingPool (m : Mem) (col : Column)
    (ty : ValueType) (pl : List Nat) (rest : List Nat)
    (hwf : wfValForCol col (.varlen ty (some pl)) = true) :
    valueDeserializeFrom false m col (valueSerializeTo (.varlen ty (some pl)) ++ rest) =
      .error .missingPool := by
  obtain ⟨hty, hvt, hbound⟩ := wfValForCol_varlen hwf
  have hpl : pl.length < 2 ^ 32 - 1 := hbound pl rfl
  simp only [valueSerializeTo]
  unfold valueDeserializeFrom
  rw [List.append_assoc]
  rw [if_pos hvt]
  rw [readN_exact (natToBytes 4 pl.length) (pl ++ rest) 4 (length_natToBytes 4 _)]
  simp only
  rw [bytesToNat_natToBytes 4 pl.length (by omega)]
  rw [if_neg (by simp only [nullMarker32]; omega)]
  rw [if_neg (by simp)]

/-- Reading back the slot written for a serialized value yields the value
again, and the slot is stable under later pool extensions. -/
theorem slotValue_valueToSlot (m : Mem) (col : Column) (v : Value)
    (hwf : wfValForCol col v = true) :
    slotValue (memAfterValue m v) col.type (valueToSlot m v) = v ∧
      slotStable (memAfterValue m v) (valueToSlot m v) := by
  cases v with
  | fixed ty x =>
    obtain ⟨hty, -, -⟩ := wfValForCol_fixed hwf
    subst hty
    exact ⟨rfl, trivial⟩
  | varlen ty p =>
    obtain ⟨hty, -, -⟩ := wfValForCol_varlen hwf
    subst hty
    cases p with
    | none => exact ⟨rfl, trivial⟩
    | some pl =>
      constructor
      · simp [memAfterValue, valueToSlot, slotValue, Mem.alloc, Mem.lookup, List.getD]
      · simp [memAfterValue, valueToSlot, slotStable, Mem.alloc]

/-! ### Storage round trip: the column loop (claims C2, C8) -/

theorem deserializeCols_serialized (cols : List Column) :
    ∀ (vals : List Value) (m : Mem) (rest : List Nat),
      vals.length = cols.length →
      (∀ i (h1 : i < cols.length) (h2 : i < vals.length),
        wfValForCol cols[i] vals[i] = true) →
      ∃ slots m',
        deserializeCols true cols m ((vals.map valueSerializeTo).flatten ++ rest) =
          .ok (slots, m', ((vals.map valueSerializeTo).flatten).length, rest) ∧
        Mem.ext m m' ∧ slots.length = cols.length ∧
        (∀ i (h1 : i < cols.length) (h2 : i < vals.length) (h3 : i < slots.length),
          slotValue m' (cols[i].type) slots[i] = vals[i] ∧ slotStable m' slots[i]) := by
  induction cols with
  | nil =>
    intro vals m rest hlen hwf
    have hv : vals = [] := List.eq_nil_of_length_eq_zero (by simpa using hlen)
    subst hv
    refine ⟨[], m, by simp [deserializeCols], Mem.ext_refl m, rfl, ?_⟩
    intro i h1
    exact absurd h1 (by simp)
  | cons col cols ih =>
    intro vals m rest hlen hwf
    rcases vals with _ | ⟨v, vs⟩
    · simp at hlen
    · have hwf0 : wfValForCol col v = true := hwf 0 (by simp) (by simp)
      obtain ⟨slots, m', hds, hext, hslen, hprops⟩ :=
        ih vs (memAfterValue m v) rest (by simpa using hlen)
          (fun i h1 h2 => hwf (i + 1) (by simpa using h1) (by simpa using h2))
      have hstep := valueDeserializeFrom_serialized_pool m col v
        ((vs.map valueSerializeTo).flatten ++ rest) hwf0
      refine ⟨valueToSlot m v :: slots, m', ?_, ?_, by simp [hslen], ?_⟩
      · simp only [List.map_cons, List.flatten_cons, List.append_assoc, deserializeCols]
        rw [hstep]
        simp only
        rw [hds]
        simp
      · exact Mem.ext_trans (mem_ext_memAfterValue m v) hext
      · intro i h1 h2 h3
        cases i with
        | zero =>
          obtain ⟨hread, hstable⟩ := slotValue_valueToSlot m col v hwf0
          simp only [List.getElem_cons_zero]
          exact ⟨by rw [slotValue_ext hext _ hstable, hread], slotStable_ext hext hstable⟩
        | succ j =>
          simp only [List.getElem_cons_succ]
          exact hprops j (by simpa using h1) (by simpa using h2) (by simpa using h3)

theorem deserializeCols_serialized_missingPool (cols : List Column) :
    ∀ (vals : List Value) (m : Mem) (rest : List Nat),
      vals.length = cols.length →
      (∀ i (h1 : i < cols.length) (h2 : i < vals.length),
        wfValForCol cols[i] vals[i] = true) →
      (∃ i, ∃ h2 : i < vals.length, isNonNullVarlen vals[i] = true) →
      deserializeCols false cols m ((vals.map valueSerializeTo).flatten ++ rest) =
        .error .missingPool := by
  induction cols with
  | nil =>
    intro vals m rest hlen hwf hex
    have hv : vals = [] := List.eq_nil_of_length_eq_zero (by simpa using hlen)
    subst hv
    obtain ⟨i, h2, -⟩ := hex
    exact absurd h2 (by simp)
  | cons col cols ih =>
    intro vals m rest hlen hwf hex
    rcases vals with _ | ⟨v, vs⟩
    · simp at hlen
    · have hwf0 : wfValForCol col v = true := hwf 0 (by simp) (by simp)
      simp only [List.map_cons, List.flatten_cons, List.append_assoc, deserializeCols]
      by_cases hnn : isNonNullVarlen v = true
      · rcases v with ⟨ty, x⟩ | ⟨ty, p⟩
        · simp [isNonNullVarlen] at hnn
        · rcases p with _ | pl
          · simp [isNonNullVarlen] at hnn
          · rw [valueDeserializeFrom_serialized_missingPool m col ty pl _ hwf0]
      · have hstep := valueDeserializeFrom_serialized_noalloc false m col v
          ((vs.map valueSerializeTo).flatten ++ rest) hwf0 (by simpa using hnn)
        rw [hstep]
        simp only
        rw [ih vs m rest (by simpa using hlen)
          (fun i h1 h2 => hwf (i + 1) (by simpa using h1) (by simpa using h2)) ?hex]
        case hex =>
          obtain ⟨i, h2, hi⟩ := hex
          cases i with
          | zero => exact absurd (by simpa using hi) hnn
          | succ j => exact ⟨j, by simpa using h2, by simpa using hi⟩

/-- Layout invariant unpacked per column: the materialized value fits the
column and the slot is stable under pool extensions. -/
theorem wfTupleB_col (m : Mem) (t : Tuple) (hwf : wfTupleB m t = true) (c : Nat)
    (hc : c < t.schema.columnCount) :
    wfValForCol (t.schema.cols.getD c default) (GetValue m t c) = true ∧
      slotStable m (t.data.getD c default) := by
  have h := List.all_eq_true.mp hwf c (List.mem_range.mpr hc)
  rcases hslot : t.data.getD c default with x | p
  · rw [hslot] at h
    cases x with
    | none =>
      constructor
      · simp only [GetValue, hslot, slotValue, wfValForCol, Schema.colType]
        simp_all [Schema.colType, List.getD]
      · trivial
    | some y =>
      rw [Bool.and_eq_true] at h
      constructor
      · simp only [GetValue, hslot, slotValue, wfValForCol, Schema.colType]
        simp_all [Schema.colType, List.getD]
      · trivial
  · rw [hslot] at h
    cases p with
    | none =>
      constructor
      · simp only [GetValue, hslot, slotValue, wfValForCol, Schema.colType]
        simp_all [Schema.colType, List.getD]
      · trivial
    | some a =>
      simp only [Bool.and_eq_true] at h
      obtain ⟨⟨hvt, hlt⟩, hpl⟩ := h
      constructor
      · simp only [GetValue, hslot, slotValue, wfValForCol, Schema.colType]
        rcases hl : m.lookup a with _ | pl
        · simp_all [Schema.colType, List.getD]
        · rw [hl] at hpl
          simp_all [Schema.colType, List.getD]
      · simpa [slotStable] using of_decide_eq_true hlt

/-- C2: serializing a well-formed tuple via the storage format and
deserializing the bytes into a fresh tuple of the same schema bound to a
different buffer consumes the whole stream and yields an
`EqualsNoSchemaCheck`-equal tuple (for inlined-only as well as mixed
schemas — the statement places no restriction on the column mix). -/
theorem serializeTo_deserializeFrom_roundtrip (t : Tuple) (m : Mem)
    (hwf : wfTupleB m t = true) (id0 : Nat) (d0 : List Slot) :
    ∃ slots m',
      DeserializeFrom (Tuple.mk id0 t.schema d0) true m (SerializeTo m t) =
        .ok (Tuple.mk id0 t.schema slots, m', []) ∧
      Mem.ext m m' ∧
      EqualsNoSchemaCheck m' t (Tuple.mk id0 t.schema slots) = true := by
  have hvlen : ((List.range t.schema.columnCount).map (fun c => GetValue m t c)).length =
      t.schema.cols.length := by
    simp [Schema.columnCount]
  have hwfi : ∀ i (h1 : i < t.schema.cols.length)
      (h2 : i < ((List.range t.schema.columnCount).map (fun c => GetValue m t c)).length),
      wfValForCol t.schema.cols[i]
        ((List.range t.schema.columnCount).map (fun c => GetValue m t c))[i] = true := by
    intro i h1 h2
    have hin : i < t.schema.columnCount := h1
    have hcol := (wfTupleB_col m t hwf i hin).1
    rw [List.getD_eq_getElem _ _ h1] at hcol
    simpa using hcol
  obtain ⟨slots, m', hds, hext, hslen, hprops⟩ :=
    deserializeCols_serialized t.schema.cols
      ((List.range t.schema.columnCount).map (fun c => GetValue m t c)) m [] hvlen hwfi
  have hbody : ((List.range t.schema.columnCount).map
        (fun c => valueSerializeTo (GetValue m t c))).flatten =
      (((List.range t.schema.columnCount).map (fun c => GetValue m t c)).map
        valueSerializeTo).flatten := by
    rw [List.map_map]
    rfl
  refine ⟨slots, m', ?_, hext, ?_⟩
  · unfold DeserializeFrom SerializeTo
    rw [readN_exact _ _ 4 (length_natToBytes 4 _)]
    simp only
    rw [hbody, show (((List.range t.schema.columnCount).map (fun c => GetValue m t c)).map
        valueSerializeTo).flatten =
      (((List.range t.schema.columnCount).map (fun c => GetValue m t c)).map
        valueSerializeTo).flatten ++ [] from (List.append_nil _).symm]
    rw [hds]
  · rw [equalsNoSchemaCheck_iff_keys]
    intro c hc
    have hcn : c < t.schema.columnCount := List.mem_range.mp hc
    have hcl : c < t.schema.cols.length := hcn
    have hcs : c < slots.length := by rw [hslen]; exact hcl
    have hcv : c < ((List.range t.schema.columnCount).map (fun c => GetValue m t c)).length := by
      rw [hvlen]; exact hcl
    have h1 : GetValue m' t c = GetValue m t c := by
      unfold GetValue
      exact slotValue_ext hext _ (wfTupleB_col m t hwf c hcn).2
    have h2 : GetValue m' (Tuple.mk id0 t.schema slots) c = GetValue m t c := by
      have hp := (hprops c hcl hcv hcs).1
      calc GetValue m' (Tuple.mk id0 t.schema slots) c
          = slotValue m' (t.schema.cols[c].type) slots[c] := by
            unfold GetValue
            dsimp only
            simp only [Schema.colType]
            rw [List.getD_eq_getElem _ _ hcl]
            congr 1
            exact List.getD_eq_getElem _ _ hcs
        _ = GetValue m t c := by
            rw [hp]
            simp
    rw [h1, h2]

/-- C8: deserializing, without a pool, a storage stream that contains at
least one uninlined column value requiring allocation (a non-null
variable-length payload) fails with `MissingPoolError`. -/
theorem deserializeFrom_missingPool (t : Tuple) (m : Mem) (hwf : wfTupleB m t = true)
    (hex : (List.range t.schema.columnCount).any
      (fun c => isNonNullVarlen (GetValue m t c)) = true)
    (id0 : Nat) (d0 : List Slot) :
    DeserializeFrom (Tuple.mk id0 t.schema d0) false m (SerializeTo m t) =
      .error .missingPool := by
  have hvlen : ((List.range t.schema.columnCount).map (fun c => GetValue m t c)).length =
      t.schema.cols.length := by
    simp [Schema.columnCount]
  have hwfi : ∀ i (h1 : i < t.schema.cols.length)
      (h2 : i < ((List.range t.schema.columnCount).map (fun c => GetValue m t c)).length),
      wfValForCol t.schema.cols[i]
        ((List.range t.schema.columnCount).map (fun c => GetValue m t c))[i] = true := by
    intro i h1 h2
    have hcol := (wfTupleB_col m t hwf i h1).1
    rw [List.getD_eq_getElem _ _ h1] at hcol
    simpa using hcol
  have hbody : ((List.range t.schema.columnCount).map
        (fun c => valueSerializeTo (GetValue m t c))).flatten =
      (((List.range t.schema.columnCount).map (fun c => GetValue m t c)).map
        valueSerializeTo).flatten := by
    rw [List.map_map]
    rfl
  have hex' : ∃ i, ∃ h2 : i <
      ((List.range t.schema.columnCount).map (fun c => GetValue m t c)).length,
      isNonNullVarlen ((List.range t.schema.columnCount).map
        (fun c => GetValue m t c))[i] = true := by
    obtain ⟨c, hcmem, hcnn⟩ := List.any_eq_true.mp hex
    have hcn : c < t.schema.columnCount := List.mem_range.mp hcmem
    refine ⟨c, by simpa using hcn, ?_⟩
    simpa using hcnn
  unfold DeserializeFrom SerializeTo
  rw [readN_exact _ _ 4 (length_natToBytes 4 _)]
  simp only
  rw [hbody, show (((List.range t.schema.columnCount).map (fun c => GetValue m t c)).map
      valueSerializeTo).flatten =
    (((List.range t.schema.columnCount).map (fun c => GetValue m t c)).map
      valueSerializeTo).flatten ++ [] from (List.append_nil _).symm]
  rw [deserializeCols_serialized_missingPool t.schema.cols
    ((List.range t.schema.columnCount).map (fun c => GetValue m t c)) m [] hvlen hwfi hex']

/-- Witness for C2: a concrete mixed schema `[INTEGER inlined, VARCHAR
uninlined]` with values `(42, [1,2,3])` round-trips into an
`EqualsNoSchemaCheck`-equal tuple in a fresh buffer. -/
theorem serializeTo_deserializeFrom_roundtrip_witness :
    wfTupleB ⟨[some [1, 2, 3]]⟩
        (Tuple.mk 0 ⟨[⟨.integer, true⟩, ⟨.varchar, false⟩]⟩
          [.inlined (some 42), .ref (some 0)]) = true ∧
      ∃ slots m',
        DeserializeFrom
            (Tuple.mk 7 ⟨[⟨.integer, true⟩, ⟨.varchar, false⟩]⟩ []) true
            ⟨[some [1, 2, 3]]⟩
            (SerializeTo ⟨[some [1, 2, 3]]⟩
              (Tuple.mk 0 ⟨[⟨.integer, true⟩, ⟨.varchar, false⟩]⟩
                [.inlined (some 42), .ref (some 0)])) =
          .ok (Tuple.mk 7 ⟨[⟨.integer, true⟩, ⟨.varchar, false⟩]⟩ slots, m', []) ∧
        Mem.ext ⟨[some [1, 2, 3]]⟩ m' ∧
        EqualsNoSchemaCheck m'
          (Tuple.mk 0 ⟨[⟨.integer, true⟩, ⟨.varchar, false⟩]⟩
            [.inlined (some 42), .ref (some 0)])
          (Tuple.mk 7 ⟨[⟨.integer, true⟩, ⟨.varchar, false⟩]⟩ slots) = true :=
  ⟨by decide,
    serializeTo_deserializeFrom_roundtrip
      (Tuple.mk 0 ⟨[⟨.integer, true⟩, ⟨.varchar, false⟩]⟩
        [.inlined (some 42), .ref (some 0)])
      ⟨[some [1, 2, 3]]⟩ (by decide) 7 []⟩

/-- Witness for C8: deserializing the serialized form of a tuple holding a
non-null uninlined varchar, with no pool, fails with `MissingPoolError`. -/
theorem deserializeFrom_missingPool_witness :
    wfTupleB ⟨[some [1, 2, 3]]⟩
        (Tuple.mk 0 ⟨[⟨.integer, true⟩, ⟨.varchar, false⟩]⟩
          [.inlined (some 42), .ref (some 0)]) = true ∧
      ((List.range (2 : Nat)).any (fun c => isNonNullVarlen
        (GetValue ⟨[some [1, 2, 3]]⟩
          (Tuple.mk 0 ⟨[⟨.integer, true⟩, ⟨.varchar, false⟩]⟩
            [.inlined (some 42), .ref (some 0)]) c)) = true) ∧
      DeserializeFrom (Tuple.mk 7 ⟨[⟨.integer, true⟩, ⟨.varchar, false⟩]⟩ []) false
          ⟨[some [1, 2, 3]]⟩
          (SerializeTo ⟨[some [1, 2, 3]]⟩
            (Tuple.mk 0 ⟨[⟨.integer, true⟩, ⟨.varchar, false⟩]⟩
              [.inlined (some 42), .ref (some 0)])) = .error .missingPool :=
  ⟨by decide, by decide,
    deserializeFrom_missingPool
      (Tuple.mk 0 ⟨[⟨.integer, true⟩, ⟨.varchar, false⟩]⟩
        [.inlined (some 42), .ref (some 0)])
      ⟨[some [1, 2, 3]]⟩ (by decide) (by decide) 7 []⟩

/-! ### Copy severs uninlined aliasing (claim C1) -/

theorem getD_set_self {α : Type} (l : List α) (i : Nat) (x d : α) (h : i < l.length) :
    (l.set i x).getD i d = x := by
  unfold List.getD
  rw [List.get?_set_eq_of_lt x h]
  rfl

theorem getD_set_ne {α : Type} (l : List α) (i j : Nat) (x d : α) (h : j ≠ i) :
    (l.set i x).getD j d = l.getD j d := by
  unfold List.getD
  rw [List.get?_set_ne x l (fun he => h he.symm)]

theorem mem_uninlinedIdxs (s : Schema) (c : Nat) :
    c ∈ s.uninlinedIdxs ↔
      c < s.cols.length ∧ (s.cols.getD c default).isInlined = false := by
  simp [Schema.uninlinedIdxs, List.mem_filter, List.mem_range]

theorem uninlinedIdxs_nodup (s : Schema) : s.uninlinedIdxs.Nodup :=
  List.Nodup.filter _ (List.nodup_range _)

theorem uninlinedIdxs_eq_nil_of_isInlinedAll (s : Schema) (h : s.isInlinedAll = true) :
    s.uninlinedIdxs = [] := by
  unfold Schema.uninlinedIdxs
  rw [List.filter_eq_nil]
  intro c hc
  have hcl : c < s.cols.length := List.mem_range.mp hc
  have hmem : s.cols.getD c default ∈ s.cols := by
    rw [List.getD_eq_getElem _ _ hcl]
    exact List.getElem_mem hcl
  have hin := List.all_eq_true.mp h _ hmem
  rw [Bool.not_eq_true', hin]
  simp

/-- The slot `SetValueAllocate` writes for a variable-length value: the
null indirection for NULL, else a handle to a freshly allocated block. -/
def severedSlot (m : Mem) : Option (List Nat) → Slot
  | none => .ref none
  | some _ => .ref (some m.blocks.length)

/-- The pool state after `SetValueAllocate` of a variable-length value. -/
def severedMem (m : Mem) : Option (List Nat) → Mem
  | none => m
  | some pl => (m.alloc pl).2

/-- The payload a (shared) indirection record materializes to. -/
def srcPayload (m : Mem) : Slot → Option (List Nat)
  | .ref (some a) => m.lookup a
  | _ => none

theorem mem_ext_severedMem (m : Mem) (pay : Option (List Nat)) :
    Mem.ext m (severedMem m pay) := by
  cases pay with
  | none => exact Mem.ext_refl m
  | some pl => exact Mem.ext_alloc m pl

theorem setValueAllocate_varlen (t : Tuple) (m : Mem) (c : Nat) (pay : Option (List Nat))
    (hvt : isVarlenType (t.schema.colType c) = true) :
    SetValueAllocate t m c (.varlen (t.schema.colType c) pay) true =
      .ok ({ t with data := t.data.set c (severedSlot m pay) }, severedMem m pay) := by
  unfold SetValueAllocate castAs serializeWithAllocation
  rw [if_pos hvt]
  cases pay with
  | none => rfl
  | some pl => simp [severedSlot, severedMem, Mem.alloc]

theorem copyLoop_spec (s : Schema) (source : List Slot) (m0 : Mem) :
    ∀ (idxs : List Nat) (t : Tuple) (m : Mem),
      t.schema = s →
      idxs.Nodup →
      Mem.ext m0 m →
      (∀ c ∈ idxs,
        isVarlenType (s.colType c) = true ∧
        c < t.data.length ∧
        t.data.getD c default = source.getD c default ∧
        (match source.getD c default with
         | .ref none => True
         | .ref (some a) => a < m0.blocks.length
         | .inlined _ => False)) →
      ∃ t' m',
        copyLoop true idxs t m = .ok (t', m') ∧
        t'.schema = s ∧
        Mem.ext m m' ∧
        (∀ c, c ∉ idxs → t'.data.getD c default = t.data.getD c default) ∧
        (∀ c ∈ idxs,
          slotValue m' (s.colType c) (t'.data.getD c default) =
            slotValue m0 (s.colType c) (source.getD c default) ∧
          (match t'.data.getD c default with
           | .ref none => True
           | .ref (some a) => m.blocks.length ≤ a ∧ a < m'.blocks.length
           | .inlined _ => False)) := by
  intro idxs
  induction idxs with
  | nil =>
    intro t m ht hnd hext hcols
    exact ⟨t, m, rfl, ht, Mem.ext_refl m, fun c _ => rfl, fun c hc => absurd hc (by simp)⟩
  | cons c rest ih =>
    intro t m ht hnd hext hcols
    obtain ⟨hvt, hclen, hdata, hsrc⟩ := hcols c (by simp)
    have hcnotrest : c ∉ rest := (List.nodup_cons.mp hnd).1
    have hndrest : rest.Nodup := (List.nodup_cons.mp hnd).2
    have hvt' : isVarlenType (t.schema.colType c) = true := by rw [ht]; exact hvt
    -- the value re-materialized from the (shared) indirection record
    have hval : GetValue m t c =
        .varlen (t.schema.colType c) (srcPayload m (source.getD c default)) := by
      unfold GetValue
      rw [hdata]
      rcases hsl : source.getD c default with x | p
      · rw [hsl] at hsrc
        exact absurd hsrc (by simp)
      · rcases p with _ | a <;> rfl
    have hstep := setValueAllocate_varlen t m c (srcPayload m (source.getD c default)) hvt'
    simp only [copyLoop]
    rw [hval, hstep]
    simp only
    have ht1 : ({ t with
        data := t.data.set c (severedSlot m (srcPayload m (source.getD c default))) } :
        Tuple).schema = s := ht
    have hcols1 : ∀ c' ∈ rest,
        isVarlenType (s.colType c') = true ∧
        c' < ({ t with
          data := t.data.set c (severedSlot m (srcPayload m (source.getD c default))) } :
          Tuple).data.length ∧
        ({ t with
          data := t.data.set c (severedSlot m (srcPayload m (source.getD c default))) } :
          Tuple).data.getD c' default = source.getD c' default ∧
        (match source.getD c' default with
         | .ref none => True
         | .ref (some a) => a < m0.blocks.length
         | .inlined _ => False) := by
      intro c' hc'
      obtain ⟨h1, h2, h3, h4⟩ := hcols c' (by simp [hc'])
      have hne : c' ≠ c := fun he => hcnotrest (he ▸ hc')
      refine ⟨h1, by simpa using h2, ?_, h4⟩
      show (t.data.set c (severedSlot m (srcPayload m (source.getD c default)))).getD
          c' default = source.getD c' default
      rw [getD_set_ne _ _ _ _ _ hne]
      exact h3
    obtain ⟨t', m', hloop, ht', hext', huntouched, hprops⟩ :=
      ih { t with
          data := t.data.set c (severedSlot m (srcPayload m (source.getD c default))) }
        (severedMem m (srcPayload m (source.getD c default))) ht1 hndrest
        (Mem.ext_trans hext (mem_ext_severedMem m _)) hcols1
    refine ⟨t', m', hloop, ht',
      Mem.ext_trans (mem_ext_severedMem m _) hext', ?_, ?_⟩
    · intro c0 hc0
      have hc0rest : c0 ∉ rest := fun hh => hc0 (by simp [hh])
      have hc0ne : c0 ≠ c := fun he => hc0 (by simp [he])
      rw [huntouched c0 hc0rest]
      simpa using getD_set_ne t.data c c0 _ default hc0ne
    · intro c0 hc0
      rcases List.mem_cons.mp hc0 with he | hm
      · subst he
        have hslot' : t'.data.getD c0 default =
            severedSlot m (srcPayload m (source.getD c0 default)) := by
          rw [huntouched c0 hcnotrest]
          simpa using getD_set_self t.data c0 _ default hclen
        rw [hslot']
        constructor
        · -- the severed slot reads back the original source value
          rcases hsl : source.getD c0 default with x | p
          · rw [hsl] at hsrc
            exact absurd hsrc (by simp)
          · rcases p with _ | a
            · rfl
            · have hab : a < m0.blocks.length := by
                rw [hsl] at hsrc
                exact hsrc
              have hm0a : m0.lookup a = m.lookup a := (Mem.lookup_ext hext hab).symm
              simp only [srcPayload]
              rcases hla : m.lookup a with _ | pl
              · simp [severedSlot, slotValue, hm0a, hla]
              · have hsp : srcPayload m (source.getD c0 default) = some pl := by
                  rw [hsl]
                  simpa [srcPayload] using hla
                rw [hsp] at hext'
                simp only [severedSlot, slotValue]
                have h1 : (severedMem m (some pl)).lookup m.blocks.length = some pl :=
                  Mem.lookup_alloc_self m pl
                have h2 : m.blocks.length < (severedMem m (some pl)).blocks.length := by
                  simp [severedMem, Mem.alloc]
                rw [Mem.lookup_ext hext' h2, h1, hm0a, hla]
        · -- the severed slot is a fresh allocation
          rcases hp : srcPayload m (source.getD c0 default) with _ | pl
          · simp [severedSlot]
          · rw [hp] at hext'
            simp only [severedSlot]
            have h2 : m.blocks.length < (severedMem m (some pl)).blocks.length := by
              simp [severedMem, Mem.alloc]
            exact ⟨le_refl _, lt_of_lt_of_le h2 (Mem.ext_length hext')⟩
      · obtain ⟨hv, hb⟩ := hprops c0 hm
        refine ⟨hv, ?_⟩
        rcases hts : t'.data.getD c0 default with x | p
        · rw [hts] at hb
          exact hb
        · rcases p with _ | a
          · trivial
          · rw [hts] at hb
            exact ⟨le_trans (Mem.ext_length (mem_ext_severedMem m _)) hb.1, hb.2⟩

/-- C1: after `Copy(source, pool)` on a well-formed source buffer, every
uninlined column of the destination holds either the null indirection or a
handle to a block freshly allocated from the pool — never the block the
source's indirection points at — so the copy reads back exactly the
source's values, and mutating or freeing any pre-existing (source-owned)
block leaves every value read from the copy unchanged, while mutating or
freeing any freshly allocated (copy-owned) block leaves every value read
from the source unchanged. -/
theorem copy_severs_uninlined_aliasing (t0 : Tuple) (source : List Slot) (m0 : Mem)
    (hlen : source.length = t0.schema.columnCount)
    (hwf : wfSourceSlotsB m0 t0.schema source = true) :
    ∃ t' m',
      Copy t0 source true m0 = .ok (t', m') ∧
      t'.schema = t0.schema ∧
      Mem.ext m0 m' ∧
      (∀ c ∈ t0.schema.uninlinedIdxs,
        (match t'.data.getD c default, source.getD c default with
         | .ref none, _ => True
         | .ref (some a), .ref (some b) =>
             m0.blocks.length ≤ a ∧ a < m'.blocks.length ∧ a ≠ b
         | .ref (some a), _ => m0.blocks.length ≤ a ∧ a < m'.blocks.length
         | .inlined _, _ => False)) ∧
      (∀ c < t0.schema.columnCount,
        GetValue m' t' c = GetValue m0 (Tuple.mk t0.schemaId t0.schema source) c) ∧
      (∀ b < m0.blocks.length, ∀ x, ∀ c < t0.schema.columnCount,
        GetValue (m'.write b x) t' c = GetValue m' t' c) ∧
      (∀ b, m0.blocks.length ≤ b → ∀ x, ∀ c < t0.schema.columnCount,
        GetValue (m'.write b x) (Tuple.mk t0.schemaId t0.schema source) c =
          GetValue m0 (Tuple.mk t0.schemaId t0.schema source) c) := by
  have hwfc : ∀ c, c < t0.schema.columnCount →
      (if t0.schema.isInlinedCol c then
        (match source.getD c default with
         | .inlined _ => true
         | .ref _ => false)
      else
        isVarlenType (t0.schema.colType c) &&
          (match source.getD c default with
           | .ref none => true
           | .ref (some a) => decide (a < m0.blocks.length)
           | .inlined _ => false)) = true :=
    fun c hc => List.all_eq_true.mp hwf c (List.mem_range.mpr hc)
  have hinl : ∀ c, c < t0.schema.columnCount → t0.schema.isInlinedCol c = true →
      ∃ x, source.getD c default = .inlined x := by
    intro c hc hflag
    have h := hwfc c hc
    rw [if_pos hflag] at h
    rcases hs : source.getD c default with x | p
    · exact ⟨x, rfl⟩
    · rw [hs] at h
      simp at h
  have huninl : ∀ c, c < t0.schema.columnCount → t0.schema.isInlinedCol c = false →
      isVarlenType (t0.schema.colType c) = true ∧
      (match source.getD c default with
       | .ref none => True
       | .ref (some a) => a < m0.blocks.length
       | .inlined _ => False) := by
    intro c hc hflag
    have h := hwfc c hc
    rw [if_neg (by simp [hflag])] at h
    rw [Bool.and_eq_true] at h
    obtain ⟨h1, h2⟩ := h
    refine ⟨h1, ?_⟩
    rcases hs : source.getD c default with x | p
    · rw [hs] at h2
      simp at h2
    · rcases p with _ | a
      · trivial
      · rw [hs] at h2
        simpa using h2
  by_cases hall : t0.schema.isInlinedAll = true
  · -- all-inlined fast path: a plain memcpy and no pool interaction
    have hflagall : ∀ c, c < t0.schema.columnCount → t0.schema.isInlinedCol c = true := by
      intro c hc
      have hmem : t0.schema.cols.getD c default ∈ t0.schema.cols := by
        rw [List.getD_eq_getElem _ _ hc]
        exact List.getElem_mem hc
      exact List.all_eq_true.mp hall _ hmem
    refine ⟨{ t0 with data := source }, m0, ?_, rfl, Mem.ext_refl m0, ?_, ?_, ?_, ?_⟩
    · unfold Copy
      rw [if_pos hall]
    · intro c hc
      rw [uninlinedIdxs_eq_nil_of_isInlinedAll _ hall] at hc
      exact absurd hc (by simp)
    · intro c hc
      rfl
    · intro b hb0 x c hc
      obtain ⟨y, hy⟩ := hinl c hc (hflagall c hc)
      show slotValue (m0.write b x) (t0.schema.colType c) (source.getD c default) =
        slotValue m0 (t0.schema.colType c) (source.getD c default)
      rw [hy]
      rfl
    · intro b hb0 x c hc
      obtain ⟨y, hy⟩ := hinl c hc (hflagall c hc)
      show slotValue (m0.write b x) (t0.schema.colType c) (source.getD c default) =
        slotValue m0 (t0.schema.colType c) (source.getD c default)
      rw [hy]
      rfl
  · obtain ⟨t', m', hloop, ht', hext', huntouched, hprops⟩ :=
      copyLoop_spec t0.schema source m0 t0.schema.uninlinedIdxs
        { t0 with data := source } m0 rfl (uninlinedIdxs_nodup _) (Mem.ext_refl m0)
        (by
          intro c hc
          obtain ⟨hclen, hflag⟩ := (mem_uninlinedIdxs _ _).mp hc
          obtain ⟨h1, h2⟩ := huninl c hclen hflag
          exact ⟨h1, by simpa [hlen] using hclen, rfl, h2⟩)
    refine ⟨t', m', ?_, ht', hext', ?_, ?_, ?_, ?_⟩
    · unfold Copy
      rw [if_neg hall]
      exact hloop
    · -- freshness and no aliasing for every uninlined column
      intro c hc
      obtain ⟨hclen, hflag⟩ := (mem_uninlinedIdxs _ _).mp hc
      obtain ⟨hv, hb⟩ := hprops c hc
      rcases hts : t'.data.getD c default with x | p
      · rw [hts] at hb
        exact hb
      · rcases p with _ | a
        · trivial
        · rw [hts] at hb
          rcases hss : source.getD c default with y | q
          · exact hb
          · rcases q with _ | bb
            · exact hb
            · obtain ⟨-, hsb⟩ := huninl c hclen hflag
              rw [hss] at hsb
              exact ⟨hb.1, hb.2, by omega⟩
    · -- the copy reads back exactly the source's values
      intro c hc
      by_cases hflag : t0.schema.isInlinedCol c = true
      · have hnotmem : c ∉ t0.schema.uninlinedIdxs := by
          rw [mem_uninlinedIdxs]
          rintro ⟨-, hf⟩
          have hf' : t0.schema.isInlinedCol c = false := hf
          rw [hflag] at hf'
          exact absurd hf' (by simp)
        obtain ⟨x, hx⟩ := hinl c hc hflag
        unfold GetValue
        rw [ht', huntouched c hnotmem]
        show slotValue m' (t0.schema.colType c) (source.getD c default) =
          slotValue m0 (t0.schema.colType c) (source.getD c default)
        rw [hx]
        rfl
      · have hmem : c ∈ t0.schema.uninlinedIdxs :=
          (mem_uninlinedIdxs _ _).mpr
            ⟨hc, ((by simpa using hflag) : t0.schema.isInlinedCol c = false)⟩
        have hv := (hprops c hmem).1
        unfold GetValue
        rw [ht']
        exact hv
    · -- mutating a source-owned block leaves the copy unchanged
      intro b hb0 x c hc
      by_cases hflag : t0.schema.isInlinedCol c = true
      · have hnotmem : c ∉ t0.schema.uninlinedIdxs := by
          rw [mem_uninlinedIdxs]
          rintro ⟨-, hf⟩
          have hf' : t0.schema.isInlinedCol c = false := hf
          rw [hflag] at hf'
          exact absurd hf' (by simp)
        obtain ⟨y, hy⟩ := hinl c hc hflag
        unfold GetValue
        rw [huntouched c hnotmem]
        show slotValue (m'.write b x) (t'.schema.colType c) (source.getD c default) =
          slotValue m' (t'.schema.colType c) (source.getD c default)
        rw [hy]
        rfl
      · have hmem : c ∈ t0.schema.uninlinedIdxs :=
          (mem_uninlinedIdxs _ _).mpr
            ⟨hc, ((by simpa using hflag) : t0.schema.isInlinedCol c = false)⟩
        have hb := (hprops c hmem).2
        unfold GetValue
        rcases hts : t'.data.getD c default with y | p
        · rw [hts] at hb
          exact hb.elim
        · rcases p with _ | a
          · rfl
          · rw [hts] at hb
            have hab : a ≠ b := by omega
            simp [slotValue, Mem.lookup_write_ne m' a b x hab]
    · -- mutating a copy-owned (fresh) block leaves the source unchanged
      intro b hb0 x c hc
      by_cases hflag : t0.schema.isInlinedCol c = true
      · obtain ⟨y, hy⟩ := hinl c hc hflag
        show slotValue (m'.write b x) (t0.schema.colType c) (source.getD c default) =
          slotValue m0 (t0.schema.colType c) (source.getD c default)
        rw [hy]
        rfl
      · obtain ⟨-, hsb⟩ := huninl c hc (by simpa using hflag)
        show slotValue (m'.write b x) (t0.schema.colType c) (source.getD c default) =
          slotValue m0 (t0.schema.colType c) (source.getD c default)
        rcases hss : source.getD c default with y | q
        · rw [hss] at hsb
          exact hsb.elim
        · rcases q with _ | a
          · rfl
          · rw [hss] at hsb
            have hab : a ≠ b := by omega
            simp [slotValue, Mem.lookup_write_ne m' a b x hab,
              Mem.lookup_ext hext' hsb]

/-- Witness for C1: copying a single-uninlined-varchar tuple whose source
indirection points at pool block 0 yields a copy owning a fresh block. -/
theorem copy_severs_uninlined_aliasing_witness :
    ([Slot.ref (some 0)] : List Slot).length =
        (Tuple.mk 0 ⟨[⟨.varchar, false⟩]⟩ [.inlined none]).schema.columnCount ∧
      wfSourceSlotsB ⟨[some [9, 9]]⟩
        (Tuple.mk 0 ⟨[⟨.varchar, false⟩]⟩ [.inlined none]).schema
        [Slot.ref (some 0)] = true ∧
      ∃ t' m',
        Copy (Tuple.mk 0 ⟨[⟨.varchar, false⟩]⟩ [.inlined none]) [Slot.ref (some 0)]
            true ⟨[some [9, 9]]⟩ = .ok (t', m') ∧
        t'.schema = (Tuple.mk 0 ⟨[⟨.varchar, false⟩]⟩ [.inlined none]).schema ∧
        Mem.ext ⟨[some [9, 9]]⟩ m' ∧
        (∀ c ∈ (Tuple.mk 0 ⟨[⟨.varchar, false⟩]⟩ [.inlined none]).schema.uninlinedIdxs,
          (match t'.data.getD c default, ([Slot.ref (some 0)] : List Slot).getD c default with
           | .ref none, _ => True
           | .ref (some a), .ref (some b) =>
               (⟨[some [9, 9]]⟩ : Mem).blocks.length ≤ a ∧
                 a < m'.blocks.length ∧ a ≠ b
           | .ref (some a), _ =>
               (⟨[some [9, 9]]⟩ : Mem).blocks.length ≤ a ∧ a < m'.blocks.length
           | .inlined _, _ => False)) ∧
        (∀ c < (Tuple.mk 0 ⟨[⟨.varchar, false⟩]⟩ [.inlined none]).schema.columnCount,
          GetValue m' t' c =
            GetValue ⟨[some [9, 9]]⟩
              (Tuple.mk 0 ⟨[⟨.varchar, false⟩]⟩ [Slot.ref (some 0)]) c) ∧
        (∀ b < (⟨[some [9, 9]]⟩ : Mem).blocks.length, ∀ x,
          ∀ c < (Tuple.mk 0 ⟨[⟨.varchar, false⟩]⟩ [.inlined none]).schema.columnCount,
          GetValue (m'.write b x) t' c = GetValue m' t' c) ∧
        (∀ b, (⟨[some [9, 9]]⟩ : Mem).blocks.length ≤ b → ∀ x,
          ∀ c < (Tuple.mk 0 ⟨[⟨.varchar, false⟩]⟩ [.inlined none]).schema.columnCount,
          GetValue (m'.write b x)
              (Tuple.mk 0 ⟨[⟨.varchar, false⟩]⟩ [Slot.ref (some 0)]) c =
            GetValue ⟨[some [9, 9]]⟩
              (Tuple.mk 0 ⟨[⟨.varchar, false⟩]⟩ [Slot.ref (some 0)]) c) :=
  ⟨by decide, by decide,
    copy_severs_uninlined_aliasing (Tuple.mk 0 ⟨[⟨.varchar, false⟩]⟩ [.inlined none])
      [Slot.ref (some 0)] ⟨[some [9, 9]]⟩ (by decide) (by decide)⟩

end NStoreTuple
